import Mathlib

/-!
# Verification of the APEX document pipeline

Shallow embedding of the APEX planning-document library (lexer, AST,
validator, constraint canonicalization, tool registry, interpreter) and
proofs of the specified properties.

Strings are modelled as Lean `String` (a wrapper around `List Char`);
character-level operations work on `List Char`.  Rust's Unicode-aware
`to_lowercase`/`to_uppercase` are modelled on the ASCII range (the only
range the pipeline's alphanumeric tests and canonical names interact
with); `str::trim` is modelled with the full Unicode white-space table.
-/

namespace Apex

/- ## Character utilities -/

/-- Model of Rust `char::is_ascii_alphanumeric`. -/
def isAsciiAlphanum (c : Char) : Bool :=
  (97 ≤ c.toNat && c.toNat ≤ 122) || (65 ≤ c.toNat && c.toNat ≤ 90) ||
    (48 ≤ c.toNat && c.toNat ≤ 57)

/-- Model of Rust `char::is_ascii_digit`. -/
def isAsciiDigit (c : Char) : Bool :=
  48 ≤ c.toNat && c.toNat ≤ 57

/-- Model of Rust `char::is_ascii_uppercase`. -/
def isAsciiUppercase (c : Char) : Bool :=
  65 ≤ c.toNat && c.toNat ≤ 90

/-- Model of Rust `char::is_whitespace` (the Unicode `White_Space` set),
used by `str::trim`. -/
def isRustWhitespace (c : Char) : Bool :=
  c.toNat == 9 || c.toNat == 10 || c.toNat == 11 || c.toNat == 12 ||
  c.toNat == 13 || c.toNat == 32 || c.toNat == 0x85 || c.toNat == 0xA0 ||
  c.toNat == 0x1680 || c.toNat == 0x2000 || c.toNat == 0x2001 ||
  c.toNat == 0x2002 || c.toNat == 0x2003 || c.toNat == 0x2004 ||
  c.toNat == 0x2005 || c.toNat == 0x2006 || c.toNat == 0x2007 ||
  c.toNat == 0x2008 || c.toNat == 0x2009 || c.toNat == 0x200A ||
  c.toNat == 0x2028 || c.toNat == 0x2029 || c.toNat == 0x202F ||
  c.toNat == 0x205F || c.toNat == 0x3000

/-- ASCII model of Rust `char::to_lowercase`. -/
def toLowerChar (c : Char) : Char :=
  if 65 ≤ c.toNat && c.toNat ≤ 90 then Char.ofNat (c.toNat + 32) else c

/-- ASCII model of Rust `char::to_uppercase`. -/
def toUpperChar (c : Char) : Char :=
  if 97 ≤ c.toNat && c.toNat ≤ 122 then Char.ofNat (c.toNat - 32) else c

/-- Model of Rust `str::trim`: strip leading and trailing white space. -/
def trimChars (l : List Char) : List Char :=
  ((l.dropWhile isRustWhitespace).reverse.dropWhile isRustWhitespace).reverse

/-- `str::trim` lifted to `String`. -/
def trimString (s : String) : String :=
  String.mk (trimChars s.data)

/-- `str::to_lowercase` (ASCII model) lifted to `String`. -/
def lowerString (s : String) : String :=
  String.mk (s.data.map toLowerChar)

/-- Does `pat` occur as a contiguous subsequence of `l`?  Model of Rust
`str::contains` with a literal pattern. -/
def occursIn (pat : List Char) : List Char → Bool
  | [] => pat.isEmpty
  | c :: t => pat.isPrefixOf (c :: t) || occursIn pat t

/-- `str::contains` lifted to `String`: does `s` contain `pat`? -/
def strContains (s pat : String) : Bool :=
  occursIn pat.data s.data

/-- Index of the first occurrence of character `c`, model of
Rust `str::find(char)` (byte offsets coincide with character counts for
the ASCII needles used by the code). -/
def idxOfChar (c : Char) : List Char → Option Nat
  | [] => none
  | a :: t =>
    if a = c then some 0
    else (idxOfChar c t).map (· + 1)

/-- Strip the optional leading `+` sign accepted by Rust's integer
parser. -/
def stripPlus : List Char → List Char
  | [] => []
  | c :: rest => if c = '+' then rest else c :: rest

/-- Decimal value of a digit string. -/
def digitsToNat (l : List Char) : Nat :=
  l.foldl (fun acc c => acc * 10 + (c.toNat - 48)) 0

/-- Model of Rust `u32::from_str`: an optional leading `+`, then one or
more ASCII digits, rejecting values that overflow 32 bits. -/
def parseU32 (l : List Char) : Option Nat :=
  let digits := stripPlus l
  if digits.isEmpty then none
  else if digits.all isAsciiDigit then
    if digitsToNat digits < 4294967296 then some (digitsToNat digits) else none
  else none

/-- Model of Rust `str::split('.')`: split at every dot, keeping empty
pieces; the result is never the empty list. -/
def splitOnDot : List Char → List (List Char)
  | [] => [[]]
  | c :: cs =>
    if c = '.' then [] :: splitOnDot cs
    else
      match splitOnDot cs with
      | [] => [[c]]
      | p :: ps => (c :: p) :: ps

/- ## AST: spans, block kinds, blocks, documents (`ast.rs`) -/

/-- Source location span (`Span` in `ast.rs`). -/
structure Span where
  start_line : Nat
  end_line : Nat
  start_col : Nat
  end_col : Nat
  deriving DecidableEq, Repr

/-- `Span::new`. -/
def Span.new (s e : Nat) : Span :=
  ⟨s, e, 1, 1⟩

/-- `Span::line`. -/
def Span.line (n : Nat) : Span :=
  Span.new n n

/-- `Span::merge` (`ast.rs`): combine two spans; note the column choice
depends only on the line comparison. -/
def Span.merge (s o : Span) : Span :=
  { start_line := min s.start_line o.start_line
    end_line := max s.end_line o.end_line
    start_col := if s.start_line ≤ o.start_line then s.start_col else o.start_col
    end_col := if o.end_line ≤ s.end_line then s.end_col else o.end_col }

/-- The nine block kinds (`BlockKind` in `ast.rs`). -/
inductive BlockKind where
  | task
  | goals
  | plan
  | constraints
  | validation
  | tools
  | diff
  | context
  | meta
  deriving DecidableEq, Repr

/-- `BlockKind::as_str`: canonical uppercase name. -/
def BlockKind.as_str : BlockKind → String
  | .task => "TASK"
  | .goals => "GOALS"
  | .plan => "PLAN"
  | .constraints => "CONSTRAINTS"
  | .validation => "VALIDATION"
  | .tools => "TOOLS"
  | .diff => "DIFF"
  | .context => "CONTEXT"
  | .meta => "META"

/-- `BlockKind::from_str`: case-insensitive (uppercase then compare). -/
def BlockKind.fromStr (s : String) : Option BlockKind :=
  let u := String.mk (s.data.map toUpperChar)
  if u = "TASK" then some .task
  else if u = "GOALS" then some .goals
  else if u = "PLAN" then some .plan
  else if u = "CONSTRAINTS" then some .constraints
  else if u = "VALIDATION" then some .validation
  else if u = "TOOLS" then some .tools
  else if u = "DIFF" then some .diff
  else if u = "CONTEXT" then some .context
  else if u = "META" then some .meta
  else none

/-- `BlockKind::is_required`. -/
def BlockKind.is_required : BlockKind → Bool
  | .task => true
  | _ => false

/-- `BlockKind::allows_empty`. -/
def BlockKind.allows_empty : BlockKind → Bool
  | .context => true
  | .meta => true
  | _ => false

/-- A block of an APEX document (`Block` in `ast.rs`). -/
structure Block where
  kind : BlockKind
  lines : List String
  span : Span
  deriving DecidableEq, Repr

/-- `Block::is_empty`: no lines, or every line blank after trimming. -/
def Block.is_empty (b : Block) : Bool :=
  b.lines.isEmpty || b.lines.all (fun l => (trimString l).isEmpty)

/-- `Block::content_lines`: trimmed non-empty lines. -/
def Block.content_lines (b : Block) : List String :=
  (b.lines.map trimString).filter (fun s => !s.isEmpty)

/-- `Block::content`: content lines joined by newlines. -/
def Block.content (b : Block) : String :=
  String.intercalate "\n" b.content_lines

/-- A parsed APEX document (`ApexDocument` in `ast.rs`). -/
structure ApexDocument where
  blocks : List Block
  version : Option String
  deriving DecidableEq, Repr

/-- `ApexDocument::get_block`: first block of a kind. -/
def ApexDocument.get_block (d : ApexDocument) (k : BlockKind) : Option Block :=
  d.blocks.find? (fun b => b.kind = k)

/-- `ApexDocument::get_blocks`: all blocks of a kind, in order. -/
def ApexDocument.get_blocks (d : ApexDocument) (k : BlockKind) : List Block :=
  d.blocks.filter (fun b => b.kind = k)

/-- `ApexDocument::count_blocks`. -/
def ApexDocument.count_blocks (d : ApexDocument) (k : BlockKind) : Nat :=
  (d.blocks.filter (fun b => b.kind = k)).length

/- ## Errors (`errors.rs`) -/

/-- Error kind taxonomy (`ApexErrorKind`). -/
inductive ApexErrorKind where
  | lexError
  | parseError
  | missingTask
  | multipleTasks
  | emptyRequiredBlock
  | unknownBlock
  | invalidToolName
  | constraintViolation
  | validationFailure
  | internalError
  deriving DecidableEq, Repr

/-- An APEX error (`ApexError`). -/
structure ApexError where
  kind : ApexErrorKind
  message : String
  line : Option Nat
  column : Option Nat
  deriving DecidableEq, Repr

/-- `ApexError::missing_task`. -/
def ApexError.missing_task : ApexError :=
  ⟨.missingTask, "APEX document must contain exactly one TASK block", none, none⟩

/-- `ApexError::multiple_tasks`. -/
def ApexError.multiple_tasks (line : Nat) : ApexError :=
  ⟨.multipleTasks, "APEX document contains multiple TASK blocks", some line, none⟩

/-- `ApexError::empty_block`. -/
def ApexError.empty_block (name : String) (line : Option Nat) : ApexError :=
  ⟨.emptyRequiredBlock, name ++ " block cannot be empty", line, none⟩

/- ## Tool registry (`tool_registry.rs`) -/

/-- The default built-in tool names (`VALID_TOOLS`). -/
def VALID_TOOLS : List String :=
  ["code_search", "code_edit", "code_read", "code_write",
   "vector_search", "vector_store", "vector_delete",
   "graph_query", "graph_store", "graph_delete",
   "memory.query", "memory.store", "memory.delete", "memory.consolidate",
   "unix_action", "bash", "shell",
   "read_file", "write_file", "edit_file", "glob", "grep",
   "web_fetch", "web_search",
   "mcp_tool"]

/-- Registry of valid tool names (`ToolRegistry`); the hash set is
modelled as a list queried only through membership. -/
structure ToolRegistry where
  tools : List String
  allow_unknown : Bool
  deriving DecidableEq, Repr

/-- `ToolRegistry::new`: the default registry. -/
def ToolRegistry.new : ToolRegistry :=
  ⟨VALID_TOOLS, false⟩

/-- `ToolRegistry::empty`. -/
def ToolRegistry.empty : ToolRegistry :=
  ⟨[], false⟩

/-- `ToolRegistry::permissive`. -/
def ToolRegistry.permissive : ToolRegistry :=
  ⟨[], true⟩

/-- `ToolRegistry::is_valid`: `allow_unknown`, or registered, or the
always-trusted `mcp__` namespace. -/
def ToolRegistry.is_valid (r : ToolRegistry) (name : String) : Bool :=
  if r.allow_unknown then true
  else if r.tools.contains name then true
  else if "mcp__".data.isPrefixOf name.data then true
  else false

/-- `extract_tool_name` (`tool_registry.rs`): substring before the first
`(`, else before the first space, else before the first `"`, else the
whole trimmed line. -/
def extract_tool_name (line : String) : String :=
  let t := trimChars line.data
  match idxOfChar '(' t with
  | some i => String.mk (trimChars (t.take i))
  | none =>
    match idxOfChar ' ' t with
    | some i => String.mk (trimChars (t.take i))
    | none =>
      match idxOfChar '"' t with
      | some i => String.mk (trimChars (t.take i))
      | none => String.mk t

/- ## Semantics: constraint canonicalization (`sem.rs`) -/

/-- Core of `normalize_constraint`: scan characters keeping ASCII
alphanumerics and collapsing every maximal run of other characters into
one `_`; the flag records whether the previous character was consumed as
a separator (initially true, so leading separators vanish). -/
def normCore : Bool → List Char → List Char
  | _, [] => []
  | lastSep, c :: cs =>
    if isAsciiAlphanum c then c :: normCore false cs
    else if lastSep then normCore lastSep cs
    else '_' :: normCore true cs

/-- Final step of `normalize_constraint`: drop one trailing underscore
(`if result.ends_with('_') { result.pop() }`). -/
def dropTrailingUnderscore (l : List Char) : List Char :=
  if l.getLast? = some '_' then l.dropLast else l

/-- `normalize_constraint` on character lists: trim, lowercase, collapse
separator runs to `_`, drop a trailing `_`. -/
def normalizeChars (l : List Char) : List Char :=
  dropTrailingUnderscore (normCore true ((trimChars l).map toLowerChar))

/-- `normalize_constraint` (`sem.rs`). -/
def normalize_constraint (s : String) : String :=
  String.mk (normalizeChars s.data)

/-- `canonicalize` (`sem.rs`): the official v1.1 canonicalization, an
alias for `normalize_constraint`. -/
def canonicalize (s : String) : String :=
  normalize_constraint s

/-- The constraint taxonomy (`Constraint` in `sem.rs`). -/
inductive Constraint where
  | realDbsOnly
  | noMocks
  | ltLoc (n : Nat)
  | safeRefactor
  | apiCompat
  | noStubs
  | requireTests
  | other (s : String)
  deriving DecidableEq, Repr

/-- The fixed synonym table of `Constraint::from_str`: exact matches on
the canonical string. -/
def synonymLookup (c : String) : Option Constraint :=
  if c = "no_mocks" then some .noMocks
  else if c = "real_dbs" ∨ c = "real_dbs_only" ∨ c = "real_databases" ∨
      c = "real_databases_only" then some .realDbsOnly
  else if c = "no_stubs" then some .noStubs
  else if c = "safe_refactor" ∨ c = "safe_refactoring" then some .safeRefactor
  else if c = "api_compat" ∨ c = "api_compatibility" ∨
      c = "api_compatibility_required" then some .apiCompat
  else if c = "require_tests" ∨ c = "tests_required" then some .requireTests
  else none

/-- Fuzzy fallback branch of `Constraint::from_str`: keyword
co-occurrence scanning of the original lowercased text; `c` is the
canonical string used for the final `Other`. -/
def fuzzyClassify (s : String) (c : String) : Constraint :=
  let lower := s.data.map toLowerChar
  if occursIn "real".data lower &&
      (occursIn "db".data lower || occursIn "database".data lower) then .realDbsOnly
  else if occursIn "no".data lower && occursIn "mock".data lower then .noMocks
  else if occursIn "no".data lower && occursIn "stub".data lower then .noStubs
  else if occursIn "safe".data lower && occursIn "refactor".data lower then .safeRefactor
  else if occursIn "api".data lower && occursIn "compat".data lower then .apiCompat
  else if occursIn "require".data lower && occursIn "test".data lower then .requireTests
  else .other c

/-- `Constraint::from_str` (`sem.rs`): canonicalize, try the synonym
table, then the `loc`-digit branch (whose `u32` parse fails silently on
no digits or overflow), then the fuzzy fallback. -/
def Constraint.fromStr (s : String) : Constraint :=
  let c := normalize_constraint s
  match synonymLookup c with
  | some k => k
  | none =>
    if occursIn "loc".data c.data then
      let digits := c.data.filter isAsciiDigit
      match parseU32 digits with
      | some n => .ltLoc n
      | none => fuzzyClassify s c
    else fuzzyClassify s c

/- ## Lexer (`parser/lexer.rs`) -/

/-- Lexer tokens (`Token`). -/
inductive Token where
  | blockHeader (kind : BlockKind) (span : Span)
  | line (content : String) (span : Span)
  | eof
  deriving DecidableEq, Repr

/-- `Lexer::is_block_header_strict`: the trimmed line must consist of
ASCII uppercase letters and underscores and name one of the nine
blocks. -/
def is_block_header_strict (line : String) : Option BlockKind :=
  let trimmed := trimChars line.data
  if trimmed.all (fun c => isAsciiUppercase c || c == '_') then
    BlockKind.fromStr (String.mk trimmed)
  else none

/-- One step of `Lexer::next_token` in strict mode on a non-exhausted
input: the consumed line at 1-indexed `lineNum` becomes a header or a
content-line token; the error path of the Rust signature is never
taken. -/
def nextTokenStrict (line : String) (lineNum : Nat) : Except ApexError Token :=
  match is_block_header_strict line with
  | some kind => .ok (.blockHeader kind (Span.line lineNum))
  | none => .ok (.line line (Span.line lineNum))

/-- Loop body of `Lexer::tokenize_all` in strict mode, starting at
1-indexed line number `n`. -/
def tokenizeFrom : Nat → List String → Except ApexError (List Token)
  | _, [] => .ok [.eof]
  | n, l :: ls =>
    match nextTokenStrict l n with
    | .error e => .error e
    | .ok t =>
      match tokenizeFrom (n + 1) ls with
      | .error e => .error e
      | .ok ts => .ok (t :: ts)

/-- `Lexer::tokenize_all` in strict mode over the lexer's line table:
every line yields exactly one token, then `Eof`. -/
def tokenizeAllStrict (lines : List String) : Except ApexError (List Token) :=
  tokenizeFrom 1 lines

/- ## Validator (`validate.rs`) -/

/-- Validation mode (`ValidationMode`). -/
inductive ValidationMode where
  | strict
  | lenient
  | legacy
  deriving DecidableEq, Repr

/-- Validated TASK view. -/
structure TaskView where
  line : String
  deriving DecidableEq, Repr

/-- Validated GOALS view. -/
structure GoalsView where
  goals : List String
  deriving DecidableEq, Repr

/-- Validated PLAN view. -/
structure PlanView where
  steps : List String
  deriving DecidableEq, Repr

/-- Validated CONSTRAINTS view. -/
structure ConstraintsView where
  rules : List String
  deriving DecidableEq, Repr

/-- Validated VALIDATION view. -/
structure ValidationView where
  conditions : List String
  deriving DecidableEq, Repr

/-- A tool declaration parsed from a TOOLS line. -/
structure ToolDeclaration where
  name : String
  arguments : Option String
  raw : String
  deriving DecidableEq, Repr

/-- Validated TOOLS view. -/
structure ToolsView where
  tools : List ToolDeclaration
  deriving DecidableEq, Repr

/-- DIFF format marker. -/
inductive DiffFormat where
  | unified
  | raw
  | unspecified
  deriving DecidableEq, Repr

/-- Validated DIFF view. -/
structure DiffView where
  format : DiffFormat
  changes : List String
  deriving DecidableEq, Repr

/-- Validated CONTEXT view. -/
structure ContextView where
  lines : List String
  deriving DecidableEq, Repr

/-- Validated META view; the Rust `HashMap` is modelled as an
association list kept duplicate-free by `metaInsert`. -/
structure MetaView where
  entries : List (String × String)
  deriving DecidableEq, Repr

/-- `HashMap::insert`: replace any previous binding of the key. -/
def metaInsert (entries : List (String × String)) (k v : String) :
    List (String × String) :=
  entries.filter (fun p => p.1 != k) ++ [(k, v)]

/-- `HashMap::get`. -/
def MetaView.get (m : MetaView) (k : String) : Option String :=
  (m.entries.find? (fun p => p.1 == k)).map (·.2)

/-- `MetaView::version`. -/
def MetaView.version (m : MetaView) : Option String :=
  m.get "version"

/-- `MetaView::is_version_compatible` (`validate.rs`): no version is
compatible; otherwise split on `.` and demand the first part parse as a
`u32` equal to 1 (`Ok(1)`), every other outcome being incompatible. -/
def MetaView.is_version_compatible (m : MetaView) : Bool :=
  match m.version with
  | none => true
  | some v =>
    match splitOnDot v.data with
    | [] => false
    | p :: _ =>
      match parseU32 p with
      | some n => if n = 1 then true else false
      | none => false

/-- Fully validated document (`ValidatedDocument`). -/
structure ValidatedDocument where
  doc : ApexDocument
  task : TaskView
  goals : Option GoalsView
  plan : Option PlanView
  constraints : Option ConstraintsView
  validation : Option ValidationView
  tools : Option ToolsView
  diff : Option DiffView
  context : Option ContextView
  meta : Option MetaView
  meta_fixes : List String
  warnings : List String
  deriving DecidableEq, Repr

/-- `parse_task_view`. -/
def parse_task_view (b : Block) : TaskView :=
  ⟨b.content⟩

/-- `parse_goals_view`. -/
def parse_goals_view (b : Block) : GoalsView :=
  ⟨b.content_lines⟩

/-- `parse_plan_view`. -/
def parse_plan_view (b : Block) : PlanView :=
  ⟨b.content_lines⟩

/-- `parse_constraints_view_canonical`: content lines canonicalized. -/
def parse_constraints_view_canonical (b : Block) : ConstraintsView :=
  ⟨b.content_lines.map canonicalize⟩

/-- `parse_validation_view`. -/
def parse_validation_view (b : Block) : ValidationView :=
  ⟨b.content_lines⟩

/-- `parse_tool_declaration`: name before the first `(`, raw argument
text up to a matching final `)` when present. -/
def parse_tool_declaration (line : String) : ToolDeclaration :=
  let trimmed := trimChars line.data
  match idxOfChar '(' trimmed with
  | some i =>
    let rest := trimmed.drop i
    let args :=
      if rest.getLast? = some ')' then String.mk (rest.drop 1).dropLast
      else String.mk (rest.drop 1)
    ⟨String.mk (trimChars (trimmed.take i)), some args, line⟩
  | none => ⟨String.mk trimmed, none, line⟩

/-- The registry error of `parse_tools_view_with_registry` in strict
mode. -/
def unknownToolError (name : String) : ApexError :=
  ⟨.invalidToolName, "Unknown tool '" ++ name ++ "' not in registry", none, none⟩

/-- The degraded-tool warning of `parse_tools_view_with_registry` in
lenient mode. -/
def toolDegradedWarning (name : String) : String :=
  "Unknown tool '" ++ name ++ "' (tool_degraded)"

/-- Per-line loop of `parse_tools_view_with_registry`: validate each
extracted name against the registry (hard error in strict mode, warning
in lenient, ignored in legacy), collecting declarations and appended
warnings in line order. -/
def toolsLines (mode : ValidationMode) (reg : Option ToolRegistry) :
    List String → Except ApexError (List ToolDeclaration × List String)
  | [] => .ok ([], [])
  | line :: rest =>
    let name := extract_tool_name line
    let bad := match reg with
      | some r => !r.is_valid name
      | none => false
    if bad && mode == ValidationMode.strict then .error (unknownToolError name)
    else
      match toolsLines mode reg rest with
      | .error e => .error e
      | .ok (ds, ws) =>
        if bad && mode == ValidationMode.lenient then
          .ok (parse_tool_declaration line :: ds, toolDegradedWarning name :: ws)
        else
          .ok (parse_tool_declaration line :: ds, ws)

/-- `parse_tools_view_with_registry` (`validate.rs`). -/
def parse_tools_view_with_registry (b : Block) (mode : ValidationMode)
    (reg : Option ToolRegistry) : Except ApexError (ToolsView × List String) :=
  match toolsLines mode reg b.content_lines with
  | .error e => .error e
  | .ok (ds, ws) => .ok (⟨ds⟩, ws)

/-- `parse_diff_view`: an optional case-insensitive `unified`/`raw`
marker on the first content line. -/
def parse_diff_view (b : Block) : DiffView :=
  match b.content_lines with
  | [] => ⟨.unspecified, []⟩
  | first :: rest =>
    if lowerString first = "unified" then ⟨.unified, rest⟩
    else if lowerString first = "raw" then ⟨.raw, rest⟩
    else ⟨.unspecified, first :: rest⟩

/-- `parse_context_view`. -/
def parse_context_view (b : Block) : ContextView :=
  ⟨b.content_lines⟩

/-- Per-line step of `parse_meta_view`: split at the first `=` when the
line has one, else at the first `:`, else no entry. -/
def metaLineEntry (l : List Char) : Option (String × String) :=
  match idxOfChar '=' l with
  | some i => some (String.mk (trimChars (l.take i)), String.mk (trimChars (l.drop (i + 1))))
  | none =>
    match idxOfChar ':' l with
    | some j => some (String.mk (trimChars (l.take j)), String.mk (trimChars (l.drop (j + 1))))
    | none => none

/-- `parse_meta_view` (`validate.rs`). -/
def parse_meta_view (b : Block) : MetaView :=
  ⟨b.content_lines.foldl
    (fun entries line =>
      match metaLineEntry line.data with
      | some (k, v) => metaInsert entries k v
      | none => entries) []⟩

/-- Rule 3 of `validate_with_mode`: an empty block whose kind does not
allow emptiness (other than TASK) yields a warning. -/
def emptyBlockWarnings (doc : ApexDocument) : List String :=
  doc.blocks.filterMap fun b =>
    if !b.kind.allows_empty ∧ b.is_empty ∧ b.kind ≠ .task then
      some ("Empty " ++ b.kind.as_str ++ " block")
    else none

/-- The strict-mode warnings of the version gate. -/
def missingMetaWarning : String :=
  "Missing META block (v1.1 requires version=1.1)"

/-- The strict-mode missing-version warning. -/
def missingVersionWarning : String :=
  "Missing version in META (v1.1 requires version=1.1)"

/-- The strict-mode incompatible-version error. -/
def unsupportedVersionError (v : String) : ApexError :=
  ⟨.validationFailure, "Unsupported APEX version: " ++ v, none, none⟩

/-- The tools part of view building: absent TOOLS gives no view and no
warnings, otherwise `parse_tools_view_with_registry` runs. -/
def toolsStage (doc : ApexDocument) (mode : ValidationMode)
    (reg : Option ToolRegistry) : Except ApexError (Option ToolsView × List String) :=
  match doc.get_block .tools with
  | none => .ok (none, [])
  | some b =>
    match parse_tools_view_with_registry b mode reg with
    | .error e => .error e
    | .ok (tv, ws) => .ok (some tv, ws)

/-- The v1.1 version gate of `validate_with_mode`: outside strict mode
nothing happens; in strict mode a missing META or version is a warning,
and an incompatible version a `ValidationFailure`. -/
def versionStage (mode : ValidationMode) (meta : Option MetaView) :
    Except ApexError (List String) :=
  if mode = .strict then
    match meta with
    | none => .ok [missingMetaWarning]
    | some m =>
      match m.version with
      | none => .ok [missingVersionWarning]
      | some v =>
        if m.is_version_compatible then .ok []
        else .error (unsupportedVersionError v)
  else .ok []

/-- `validate_with_mode` after the TASK rules: build the views (only
tools can fail), then apply the strict-mode version gate, accumulating
warnings in program order (empty-block warnings, then tool warnings,
then the version warning). -/
def validateRest (doc : ApexDocument) (mode : ValidationMode)
    (reg : Option ToolRegistry) (t : Block) : Except ApexError ValidatedDocument :=
  match toolsStage doc mode reg with
  | .error e => .error e
  | .ok (toolsView, toolWarns) =>
    match versionStage mode ((doc.get_block .meta).map parse_meta_view) with
    | .error e => .error e
    | .ok versionWarns =>
      .ok
        { doc := doc
          task := parse_task_view t
          goals := (doc.get_block .goals).map parse_goals_view
          plan := (doc.get_block .plan).map parse_plan_view
          constraints := (doc.get_block .constraints).map parse_constraints_view_canonical
          validation := (doc.get_block .validation).map parse_validation_view
          tools := toolsView
          diff := (doc.get_block .diff).map parse_diff_view
          context := (doc.get_block .context).map parse_context_view
          meta := (doc.get_block .meta).map parse_meta_view
          meta_fixes := []
          warnings := emptyBlockWarnings doc ++ toolWarns ++ versionWarns }

/-- `validate_with_mode` (`validate.rs`).  The Rust rule sequence
(count = 0 fails, count > 1 fails naming the second occurrence, the
unique TASK must be non-empty) is written as one match on the list of
TASK blocks: `get_blocks` and `count_blocks` filter the same list, and
`doc.task()` is its first element. -/
def validate_with_mode (doc : ApexDocument) (mode : ValidationMode)
    (reg : Option ToolRegistry) : Except ApexError ValidatedDocument :=
  match doc.get_blocks .task with
  | [] => .error ApexError.missing_task
  | [t] =>
    if t.is_empty then .error (ApexError.empty_block "TASK" (some t.span.start_line))
    else validateRest doc mode reg t
  | _ :: t2 :: _ => .error (ApexError.multiple_tasks t2.span.start_line)

/-- `validate`: the legacy-mode convenience wrapper. -/
def validate (doc : ApexDocument) : Except ApexError ValidatedDocument :=
  validate_with_mode doc .legacy none

/- ## Interpreter (`interpreter.rs`) -/

/-- Step status (`StepStatus`). -/
inductive StepStatus where
  | pending
  | running
  | complete
  | failed
  | skipped
  deriving DecidableEq, Repr

/-- Execution state (`ExecutionState`): the out-of-band progress
tracker. -/
structure ExecutionState where
  step_states : List StepStatus
  checkpoint : Nat
  tool_results : List (Option String)
  validation_outcomes : List Bool
  paused : Bool
  error : Option String
  deriving DecidableEq, Repr

/-- `ExecutionState::new`. -/
def ExecutionState.new (numSteps : Nat) : ExecutionState :=
  { step_states := List.replicate numSteps .pending
    checkpoint := 0
    tool_results := List.replicate numSteps none
    validation_outcomes := []
    paused := false
    error := none }

/-- `ExecutionState::start_step`: mark a step running when in bounds,
otherwise do nothing. -/
def ExecutionState.start_step (s : ExecutionState) (step : Nat) : ExecutionState :=
  if step < s.step_states.length then
    { s with step_states := s.step_states.set step .running }
  else s

/-- `ExecutionState::complete_step`.  The Rust body indexes
`tool_results[step]` after checking `step` only against
`step_states.len()`; a state whose `tool_results` is shorter would
panic there, modelled as `none`. -/
def ExecutionState.complete_step (s : ExecutionState) (step : Nat)
    (result : Option String) : Option ExecutionState :=
  if step < s.step_states.length then
    if step < s.tool_results.length then
      some { s with
        step_states := s.step_states.set step .complete
        tool_results := s.tool_results.set step result
        checkpoint := step + 1 }
    else none
  else some s

/-- `ExecutionState::fail_step`. -/
def ExecutionState.fail_step (s : ExecutionState) (step : Nat)
    (err : String) : ExecutionState :=
  if step < s.step_states.length then
    { s with
      step_states := s.step_states.set step .failed
      error := some err }
  else s

/-- `ExecutionState::skip_step`. -/
def ExecutionState.skip_step (s : ExecutionState) (step : Nat) : ExecutionState :=
  if step < s.step_states.length then
    { s with step_states := s.step_states.set step .skipped }
  else s

/-- Tool invocation in an execution plan (`ToolInvocation`); the
optional parsed-JSON arguments are always `None` when built from a
declaration. -/
structure ToolInvocation where
  name : String
  raw_arguments : Option String
  deriving DecidableEq, Repr

/-- `ToolInvocation::from_declaration`. -/
def ToolInvocation.from_declaration (d : ToolDeclaration) : ToolInvocation :=
  ⟨d.name, d.arguments⟩

/-- A single execution step (`ExecutionStep`). -/
structure ExecutionStep where
  step_number : Nat
  description : String
  tool : Option ToolInvocation
  depends_on : List Nat
  deriving DecidableEq, Repr

/-- The complete execution plan (`ExecutionPlan`). -/
structure ExecutionPlan where
  task : String
  goals : List String
  constraints : List String
  steps : List ExecutionStep
  validation : List String
  available_tools : List ToolInvocation
  deriving DecidableEq, Repr

/-- `ExecutionPlan::initial_steps`: steps with no dependencies. -/
def ExecutionPlan.initial_steps (p : ExecutionPlan) : List ExecutionStep :=
  p.steps.filter (fun s => s.depends_on.isEmpty)

/-- `ExecutionPlan::dependents`. -/
def ExecutionPlan.dependents (p : ExecutionPlan) (stepNumber : Nat) : List ExecutionStep :=
  p.steps.filter (fun s => s.depends_on.contains stepNumber)

/-- `match_tool_to_step`: first declared tool whose lowercased name
occurs in the lowercased step description, or which shares one of the
keywords read/write/search/edit with it. -/
def match_tool_to_step (stepDesc : String) (tools : List ToolInvocation) :
    Option ToolInvocation :=
  let lower := stepDesc.data.map toLowerChar
  tools.find? fun tool =>
    let toolLower := tool.name.data.map toLowerChar
    occursIn toolLower lower ||
    (occursIn "read".data lower && occursIn "read".data toolLower) ||
    (occursIn "write".data lower && occursIn "write".data toolLower) ||
    (occursIn "search".data lower && occursIn "search".data toolLower) ||
    (occursIn "edit".data lower && occursIn "edit".data toolLower)

/-- Loop body of `build_steps` from 0-based index `i`: auto-numbered
steps, positional tool binding when `positional` (tool count equals
step count, when `tools.get? i` never misses), otherwise heuristic
matching; each step after the first depends on its predecessor. -/
def buildStepsFrom (tools : List ToolInvocation) (positional : Bool) :
    Nat → List String → List ExecutionStep
  | _, [] => []
  | i, d :: ds =>
    { step_number := i + 1
      description := d
      tool := if positional then tools.get? i else match_tool_to_step d tools
      depends_on := if i + 1 > 1 then [i] else [] } :: buildStepsFrom tools positional (i + 1) ds

/-- `build_steps` (`interpreter.rs`). -/
def build_steps (doc : ValidatedDocument) (tools : List ToolInvocation) :
    List ExecutionStep :=
  match doc.plan with
  | none => []
  | some plan => buildStepsFrom tools (tools.length == plan.steps.length) 0 plan.steps

/-- `build_execution_plan` (`interpreter.rs`); the Rust `ApexResult`
wrapper never takes its error path. -/
def build_execution_plan (doc : ValidatedDocument) : Except ApexError ExecutionPlan :=
  let available_tools := match doc.tools with
    | some t => t.tools.map ToolInvocation.from_declaration
    | none => []
  .ok
    { task := doc.task.line
      goals := match doc.goals with
        | some g => g.goals
        | none => []
      constraints := match doc.constraints with
        | some c => c.rules
        | none => []
      steps := build_steps doc available_tools
      validation := match doc.validation with
        | some v => v.conditions
        | none => []
      available_tools := available_tools }

/- ## Claim C9: `Span::merge` -/

/-- The merge the claim describes: start is the lexicographic minimum of
the two start positions, end the lexicographic maximum of the two end
positions (ties take the span that starts/ends earlier, which on a full
tie is either). -/
def Span.mergeSpec (s o : Span) : Span :=
  let st :=
    if s.start_line < o.start_line ∨
        (s.start_line = o.start_line ∧ s.start_col ≤ o.start_col) then
      (s.start_line, s.start_col)
    else (o.start_line, o.start_col)
  let en :=
    if o.end_line < s.end_line ∨ (o.end_line = s.end_line ∧ o.end_col ≤ s.end_col) then
      (s.end_line, s.end_col)
    else (o.end_line, o.end_col)
  ⟨st.1, en.1, st.2, en.2⟩

/-- C9, counterexample: with equal start lines the code keeps the
receiver's start column even when the argument starts earlier in the
line, so the result is not the minimal covering span the claim
describes (symmetrically for end columns). -/
theorem span_merge_counterexample :
    Span.merge ⟨5, 7, 10, 4⟩ ⟨5, 7, 3, 9⟩ = ⟨5, 7, 10, 4⟩ ∧
    Span.mergeSpec ⟨5, 7, 10, 4⟩ ⟨5, 7, 3, 9⟩ = ⟨5, 7, 3, 9⟩ ∧
    Span.merge ⟨5, 7, 10, 4⟩ ⟨5, 7, 3, 9⟩ ≠ Span.mergeSpec ⟨5, 7, 10, 4⟩ ⟨5, 7, 3, 9⟩ := by
  decide

/-- C9, amended: `merge` takes the minimal covering line range, and its
start position is the lexicographically smaller start position whenever
the start lines differ (symmetrically and independently for the end
position); on a start (end) line tie the receiver's start (end) column
is kept, whether or not it is the smaller one. -/
theorem span_merge_amended (a b : Span) :
    (a.merge b).start_line = min a.start_line b.start_line ∧
    (a.merge b).end_line = max a.end_line b.end_line ∧
    (a.start_line ≠ b.start_line →
      (a.merge b).start_line = (a.mergeSpec b).start_line ∧
      (a.merge b).start_col = (a.mergeSpec b).start_col) ∧
    (a.end_line ≠ b.end_line →
      (a.merge b).end_line = (a.mergeSpec b).end_line ∧
      (a.merge b).end_col = (a.mergeSpec b).end_col) ∧
    (a.start_line ≠ b.start_line ∧ a.end_line ≠ b.end_line →
      a.merge b = a.mergeSpec b) ∧
    (a.start_line = b.start_line → (a.merge b).start_col = a.start_col) ∧
    (a.end_line = b.end_line → (a.merge b).end_col = a.end_col) := by
  refine ⟨rfl, rfl, ?_, ?_, ?_, ?_, ?_⟩
  · intro hs
    obtain ⟨asl, ael, asc, aec⟩ := a
    obtain ⟨bsl, bel, bsc, bec⟩ := b
    simp only at hs
    simp only [Span.merge, Span.mergeSpec, Nat.min_def, Nat.max_def]
    split_ifs <;> simp_all <;> omega
  · intro he
    obtain ⟨asl, ael, asc, aec⟩ := a
    obtain ⟨bsl, bel, bsc, bec⟩ := b
    simp only at he
    simp only [Span.merge, Span.mergeSpec, Nat.min_def, Nat.max_def]
    split_ifs <;> simp_all <;> omega
  · rintro ⟨hs, he⟩
    obtain ⟨asl, ael, asc, aec⟩ := a
    obtain ⟨bsl, bel, bsc, bec⟩ := b
    simp only at hs he
    simp only [Span.merge, Span.mergeSpec, Nat.min_def, Nat.max_def]
    split_ifs <;> simp_all [Span.mk.injEq] <;> omega
  · intro h
    simp [Span.merge, h]
  · intro h
    simp [Span.merge, h]

/-- Witness for the amended C9: a mixed case whose start lines differ
while the end lines tie, pinning the start position, and a case with
both line pairs distinct giving the full minimal covering span. -/
theorem span_merge_amended_witness :
    ((Span.merge ⟨1, 5, 4, 9⟩ ⟨2, 5, 3, 1⟩).start_line =
        (Span.mergeSpec ⟨1, 5, 4, 9⟩ ⟨2, 5, 3, 1⟩).start_line ∧
      (Span.merge ⟨1, 5, 4, 9⟩ ⟨2, 5, 3, 1⟩).start_col =
        (Span.mergeSpec ⟨1, 5, 4, 9⟩ ⟨2, 5, 3, 1⟩).start_col) ∧
    Span.merge ⟨1, 4, 2, 3⟩ ⟨2, 5, 7, 6⟩ = Span.mergeSpec ⟨1, 4, 2, 3⟩ ⟨2, 5, 7, 6⟩ :=
  ⟨(span_merge_amended ⟨1, 5, 4, 9⟩ ⟨2, 5, 3, 1⟩).2.2.1 (by decide),
   (span_merge_amended ⟨1, 4, 2, 3⟩ ⟨2, 5, 7, 6⟩).2.2.2.2.1 ⟨by decide, by decide⟩⟩

/- ## Claim C10: out-of-bounds `ExecutionState` transitions -/

/-- C10: when `step` is at least `step_states.len()`, each of the four
transition operations returns without panicking and leaves the state
unchanged. -/
theorem execution_state_oob_noop (s : ExecutionState) (step : Nat)
    (h : s.step_states.length ≤ step) (result : Option String) (err : String) :
    s.start_step step = s ∧
    s.complete_step step result = some s ∧
    s.fail_step step err = s ∧
    s.skip_step step = s := by
  unfold ExecutionState.start_step ExecutionState.complete_step
    ExecutionState.fail_step ExecutionState.skip_step
  refine ⟨?_, ?_, ?_, ?_⟩ <;> rw [if_neg (by omega)]

/-- Witness for C10 at a concrete two-step state and index 5. -/
theorem execution_state_oob_noop_witness :
    (ExecutionState.new 2).start_step 5 = ExecutionState.new 2 ∧
    (ExecutionState.new 2).complete_step 5 (some "r") = some (ExecutionState.new 2) ∧
    (ExecutionState.new 2).fail_step 5 "e" = ExecutionState.new 2 ∧
    (ExecutionState.new 2).skip_step 5 = ExecutionState.new 2 :=
  execution_state_oob_noop (ExecutionState.new 2) 5 (by decide) (some "r") "e"

/- ## Claim C2: plan steps are dense, ordered, sequentially dependent -/

theorem buildStepsFrom_length (tools : List ToolInvocation) (positional : Bool) :
    ∀ (ds : List String) (i : Nat), (buildStepsFrom tools positional i ds).length = ds.length := by
  intro ds
  induction ds with
  | nil => intro i; rfl
  | cons d ds ih => intro i; simp [buildStepsFrom, ih]

theorem buildStepsFrom_get (tools : List ToolInvocation) (positional : Bool) :
    ∀ (ds : List String) (i j : Nat) (st : ExecutionStep),
      (buildStepsFrom tools positional i ds).get? j = some st →
      st.step_number = i + j + 1 ∧ ds.get? j = some st.description ∧
        st.depends_on = (if i + j = 0 then [] else [i + j]) := by
  intro ds
  induction ds with
  | nil => intro i j st h; simp [buildStepsFrom] at h
  | cons d ds ih =>
    intro i j st h
    cases j with
    | zero =>
      simp only [buildStepsFrom, List.get?_cons_zero, Option.some.injEq] at h
      subst h
      refine ⟨by simp, rfl, ?_⟩
      by_cases hi : i = 0
      · subst hi; simp
      · show (if i + 1 > 1 then [i] else []) = if i + 0 = 0 then [] else [i + 0]
        rw [if_pos (by omega), if_neg (by omega)]
        simp
    | succ j =>
      simp only [buildStepsFrom, List.get?_cons_succ] at h
      obtain ⟨h1, h2, h3⟩ := ih (i + 1) j st h
      refine ⟨by omega, h2, ?_⟩
      rw [h3]
      rw [if_neg (by omega), if_neg (by omega)]
      congr 1
      omega

theorem buildStepsFrom_no_initial (tools : List ToolInvocation) (positional : Bool) :
    ∀ (ds : List String) (i : Nat), 1 ≤ i →
      (buildStepsFrom tools positional i ds).filter (fun s => s.depends_on.isEmpty) = [] := by
  intro ds
  induction ds with
  | nil => intro i _; rfl
  | cons d ds ih =>
    intro i hi
    simp only [buildStepsFrom, List.filter_cons]
    rw [if_neg (by simp; omega)]
    exact ih (i + 1) (by omega)

/-- C2: for a validated document whose `PlanView` has N steps,
`build_execution_plan` numbers its steps densely 1..=N in `PlanView`
order, the first step has no dependencies while step n (n > 1) depends
exactly on step n−1, and consequently `initial_steps` returns only the
first step. -/
theorem plan_steps_dense (vd : ValidatedDocument) (pv : PlanView) (hp : vd.plan = some pv) :
    ∃ p, build_execution_plan vd = .ok p ∧
      p.steps.length = pv.steps.length ∧
      (∀ j st, p.steps.get? j = some st →
        st.step_number = j + 1 ∧ pv.steps.get? j = some st.description ∧
          st.depends_on = (if j = 0 then [] else [j])) ∧
      (∀ st0, p.steps.get? 0 = some st0 → p.initial_steps = [st0]) := by
  refine ⟨_, rfl, ?_, ?_, ?_⟩
  · simp only [build_execution_plan, build_steps, hp]
    exact buildStepsFrom_length _ _ _ _
  · intro j st h
    simp only [build_execution_plan, build_steps, hp] at h
    simpa using buildStepsFrom_get _ _ _ _ _ _ h
  · intro st0 h0
    simp only [build_execution_plan, build_steps, hp,
      ExecutionPlan.initial_steps] at h0 ⊢
    cases hs : pv.steps with
    | nil => rw [hs] at h0; simp [buildStepsFrom] at h0
    | cons d ds =>
      rw [hs] at h0
      simp only [buildStepsFrom, List.get?_cons_zero, Option.some.injEq] at h0
      subst h0
      simp only [buildStepsFrom, List.filter_cons]
      rw [if_pos (by simp)]
      rw [buildStepsFrom_no_initial _ _ ds 1 (by omega)]

/-- A concrete validated document used by witnesses: one task, a
two-step plan, no other views. -/
def vdTwoSteps : ValidatedDocument :=
  { doc := ⟨[⟨.task, ["t"], Span.line 1⟩, ⟨.plan, ["a", "b"], Span.new 2 4⟩], none⟩
    task := ⟨"t"⟩
    goals := none
    plan := some ⟨["a", "b"]⟩
    constraints := none
    validation := none
    tools := none
    diff := none
    context := none
    meta := none
    meta_fixes := []
    warnings := [] }

/-- Witness for C2 at a concrete two-step document. -/
theorem plan_steps_dense_witness :
    ∃ p, build_execution_plan vdTwoSteps = .ok p ∧
      p.steps.length = (PlanView.mk ["a", "b"]).steps.length ∧
      (∀ j st, p.steps.get? j = some st →
        st.step_number = j + 1 ∧
          (PlanView.mk ["a", "b"]).steps.get? j = some st.description ∧
          st.depends_on = (if j = 0 then [] else [j])) ∧
      (∀ st0, p.steps.get? 0 = some st0 → p.initial_steps = [st0]) :=
  plan_steps_dense vdTwoSteps ⟨["a", "b"]⟩ rfl

/- ## Claim C7: strict-mode header recognition -/

/-- The nine canonical block names. -/
def canonicalHeaderNames : List String :=
  ["TASK", "GOALS", "PLAN", "CONSTRAINTS", "VALIDATION", "TOOLS", "DIFF",
   "CONTEXT", "META"]

theorem toUpperChar_eq_self {c : Char} (h : (isAsciiUppercase c || c == '_') = true) :
    toUpperChar c = c := by
  have h' : isAsciiUppercase c = true ∨ (c == '_') = true := by
    simpa using h
  rcases h' with hc | hc
  · unfold isAsciiUppercase at hc
    simp only [Bool.and_eq_true, decide_eq_true_eq] at hc
    unfold toUpperChar
    rw [if_neg]
    simp only [Bool.and_eq_true, decide_eq_true_eq, not_and]
    omega
  · have : c = '_' := by simpa using hc
    subst this
    decide

theorem all_upperUS_map_toUpper {t : List Char}
    (h : t.all (fun c => isAsciiUppercase c || c == '_') = true) :
    t.map toUpperChar = t := by
  induction t with
  | nil => rfl
  | cons c cs ih =>
    simp only [List.all_cons, Bool.and_eq_true] at h
    simp only [List.map_cons, ih h.2, List.cons.injEq, and_true]
    exact toUpperChar_eq_self h.1

theorem fromStr_some_of_mem {s : String} (h : s ∈ canonicalHeaderNames) :
    ∃ k, BlockKind.fromStr s = some k := by
  simp only [canonicalHeaderNames, List.mem_cons, List.not_mem_nil, or_false] at h
  rcases h with rfl | rfl | rfl | rfl | rfl | rfl | rfl | rfl | rfl
  all_goals exact ⟨_, rfl⟩

theorem fromStr_none_of_not_mem {s : String} (hu : s.data.map toUpperChar = s.data)
    (h : s ∉ canonicalHeaderNames) : BlockKind.fromStr s = none := by
  simp only [canonicalHeaderNames, List.mem_cons, List.not_mem_nil, or_false,
    not_or] at h
  obtain ⟨h1, h2, h3, h4, h5, h6, h7, h8, h9⟩ := h
  unfold BlockKind.fromStr
  have hs : String.mk (s.data.map toUpperChar) = s := by rw [hu]
  rw [hs, if_neg h1, if_neg h2, if_neg h3, if_neg h4, if_neg h5, if_neg h6,
    if_neg h7, if_neg h8, if_neg h9]

/-- C7: in strict mode a line becomes a `BlockHeader` token exactly when
its trimmed text is all ASCII uppercase letters and underscores and
equals one of the nine canonical names; every other line becomes an
ordinary `Line` token, and the lexer never returns an error. -/
theorem lexer_strict_header (l : String) (n : Nat) :
    ((∃ k, nextTokenStrict l n = .ok (Token.blockHeader k (Span.line n))) ↔
      ((trimChars l.data).all (fun c => isAsciiUppercase c || c == '_') = true ∧
        String.mk (trimChars l.data) ∈ canonicalHeaderNames)) ∧
    (nextTokenStrict l n = .ok (Token.line l (Span.line n)) ↔
      ¬((trimChars l.data).all (fun c => isAsciiUppercase c || c == '_') = true ∧
        String.mk (trimChars l.data) ∈ canonicalHeaderNames)) ∧
    (∃ t, nextTokenStrict l n = .ok t) := by
  by_cases hall : (trimChars l.data).all (fun c => isAsciiUppercase c || c == '_') = true
  · have hu : (trimChars l.data).map toUpperChar = trimChars l.data :=
      all_upperUS_map_toUpper hall
    by_cases hm : String.mk (trimChars l.data) ∈ canonicalHeaderNames
    · obtain ⟨k, hk⟩ := fromStr_some_of_mem hm
      have hh : is_block_header_strict l = some k := by
        unfold is_block_header_strict
        rw [if_pos hall]
        exact hk
      unfold nextTokenStrict
      rw [hh]
      refine ⟨⟨fun _ => ⟨hall, hm⟩, fun _ => ⟨k, rfl⟩⟩, ?_, ⟨_, rfl⟩⟩
      constructor
      · intro h
        simp at h
      · intro h
        exact absurd ⟨hall, hm⟩ h
    · have hh : is_block_header_strict l = none := by
        unfold is_block_header_strict
        rw [if_pos hall]
        exact fromStr_none_of_not_mem hu hm
      unfold nextTokenStrict
      rw [hh]
      refine ⟨?_, ?_, ⟨_, rfl⟩⟩
      · constructor
        · rintro ⟨k, hk⟩
          simp at hk
        · rintro ⟨-, hmem⟩
          exact absurd hmem hm
      · exact ⟨fun _ h => hm h.2, fun _ => rfl⟩
  · have hh : is_block_header_strict l = none := by
      unfold is_block_header_strict
      rw [if_neg hall]
    unfold nextTokenStrict
    rw [hh]
    refine ⟨?_, ?_, ⟨_, rfl⟩⟩
    · constructor
      · rintro ⟨k, hk⟩
        simp at hk
      · rintro ⟨ha, -⟩
        exact absurd ha hall
    · exact ⟨fun _ h => hall h.1, fun _ => rfl⟩

/-- Witness for C7: `TASK` is a header, while the lowercase `task` and
the colon-suffixed `TASK:` are ordinary lines. -/
theorem lexer_strict_header_witness :
    nextTokenStrict "task" 2 = .ok (Token.line "task" (Span.line 2)) ∧
    nextTokenStrict "TASK:" 3 = .ok (Token.line "TASK:" (Span.line 3)) ∧
    (∃ k, nextTokenStrict "TASK" 1 = .ok (Token.blockHeader k (Span.line 1))) :=
  ⟨(lexer_strict_header "task" 2).2.1.mpr (by decide),
   (lexer_strict_header "TASK:" 3).2.1.mpr (by decide),
   (lexer_strict_header "TASK" 1).1.mpr (by decide)⟩

/- ## Claim C6: the `loc` branch of `Constraint::from_str` -/

theorem stripPlus_of_all_digits {l : List Char} (h : l.all isAsciiDigit = true) :
    stripPlus l = l := by
  cases l with
  | nil => rfl
  | cons c t =>
    simp only [List.all_cons, Bool.and_eq_true] at h
    have hc : c ≠ '+' := by
      intro hc
      subst hc
      simp [isAsciiDigit] at h
    show (if c = '+' then t else c :: t) = c :: t
    rw [if_neg hc]

theorem filter_digits_all (l : List Char) :
    (l.filter isAsciiDigit).all isAsciiDigit = true := by
  rw [List.all_eq_true]
  intro c hc
  exact (List.mem_filter.mp hc).2

theorem parseU32_digits_iff {ds : List Char} (hd : ds.all isAsciiDigit = true) :
    ∀ n, parseU32 ds = some n ↔ (ds ≠ [] ∧ n = digitsToNat ds ∧ n < 4294967296) := by
  intro n
  unfold parseU32
  rw [stripPlus_of_all_digits hd]
  by_cases he : ds.isEmpty
  · rw [if_pos he]
    simp only [List.isEmpty_iff] at he
    simp [he]
  · rw [if_neg he, if_pos hd]
    simp only [List.isEmpty_iff] at he
    by_cases hb : digitsToNat ds < 4294967296
    · rw [if_pos hb]
      constructor
      · rintro h
        injection h with h
        subst h
        exact ⟨he, rfl, hb⟩
      · rintro ⟨-, rfl, -⟩
        rfl
    · rw [if_neg hb]
      constructor
      · rintro ⟨⟩
      · rintro ⟨-, rfl, hn⟩
        exact absurd hn hb

/-- C6, counterexample: `"loc4294967296"` is canonical, is no synonym,
contains `loc` and has digits, yet the digit string overflows `u32`, so
the parse fails silently and classification falls through to the fuzzy
branch, yielding `Other` instead of the `LtLoc` the claim requires. -/
theorem loc_constraint_counterexample :
    synonymLookup (normalize_constraint "loc4294967296") = none ∧
    occursIn "loc".data (normalize_constraint "loc4294967296").data = true ∧
    (normalize_constraint "loc4294967296").data.filter isAsciiDigit ≠ [] ∧
    Constraint.fromStr "loc4294967296" = .other "loc4294967296" ∧
    Constraint.fromStr "loc4294967296" ≠ .ltLoc 4294967296 := by
  refine ⟨by decide, by decide, by decide, by decide, by decide⟩

/-- C6, amended: when the canonical form matches no synonym and contains
`loc`, the digit characters of the canonical string are parsed as one
`u32`: if they form a non-empty string whose value fits in 32 bits the
result is `LtLoc` of that value, and otherwise — no digits at all, or a
value of 2^32 or more — classification falls silently through to the
fuzzy-keyword branch. -/
theorem loc_constraint_amended (s : String)
    (hsyn : synonymLookup (normalize_constraint s) = none)
    (hloc : occursIn "loc".data (normalize_constraint s).data = true) :
    (∀ n, parseU32 ((normalize_constraint s).data.filter isAsciiDigit) = some n →
        Constraint.fromStr s = .ltLoc n) ∧
    (parseU32 ((normalize_constraint s).data.filter isAsciiDigit) = none →
        Constraint.fromStr s = fuzzyClassify s (normalize_constraint s)) ∧
    (∀ n, parseU32 ((normalize_constraint s).data.filter isAsciiDigit) = some n ↔
        ((normalize_constraint s).data.filter isAsciiDigit ≠ [] ∧
          n = digitsToNat ((normalize_constraint s).data.filter isAsciiDigit) ∧
          n < 4294967296)) := by
  refine ⟨?_, ?_, fun n => parseU32_digits_iff (filter_digits_all _) n⟩
  · intro n hn
    simp only [Constraint.fromStr, hsyn, hloc, hn, if_true]
  · intro hn
    simp only [Constraint.fromStr, hsyn, hloc, hn, if_true]

/-- Witness for the amended C6 at `"< 300 LOC"`. -/
theorem loc_constraint_amended_witness :
    Constraint.fromStr "< 300 LOC" = .ltLoc 300 :=
  (loc_constraint_amended "< 300 LOC" (by decide) (by decide)).1 300 (by decide)

/- ## Claim C8: META line splitting -/

/-- The claim's reading of META line splitting: the entry splits at
whichever of `=` and `:` occurs first in the line. -/
def metaLineEntrySpec (l : List Char) : Option (String × String) :=
  match l.findIdx? (fun c => c == '=' || c == ':') with
  | some i => some (String.mk (trimChars (l.take i)), String.mk (trimChars (l.drop (i + 1))))
  | none => none

/-- C8, counterexample: on the line `a: b=c` the colon occurs first, so
the claim requires the entry `("a", "b=c")`, but the code tries `=`
before `:` regardless of position and produces `("a: b", "c")`. -/
theorem meta_split_counterexample :
    metaLineEntry "a: b=c".data = some ("a: b", "c") ∧
    metaLineEntrySpec "a: b=c".data = some ("a", "b=c") ∧
    metaLineEntry "a: b=c".data ≠ metaLineEntrySpec "a: b=c".data ∧
    (parse_meta_view ⟨.meta, ["a: b=c"], Span.line 1⟩).entries = [("a: b", "c")] := by
  refine ⟨by decide, by decide, by decide, by decide⟩

theorem idxOfChar_not_mem {c : Char} : ∀ {l : List Char}, c ∉ l → idxOfChar c l = none := by
  intro l
  induction l with
  | nil => intro _; rfl
  | cons a t ih =>
    intro h
    have ha : a ≠ c := fun hac => h (hac ▸ List.mem_cons_self a t)
    have ht : c ∉ t := fun hct => h (List.mem_cons_of_mem a hct)
    unfold idxOfChar
    rw [if_neg ha, ih ht]
    rfl

theorem idxOfChar_append {c : Char} : ∀ (pre post : List Char), c ∉ pre →
    idxOfChar c (pre ++ c :: post) = some pre.length := by
  intro pre
  induction pre with
  | nil => intro post _; simp [idxOfChar]
  | cons a t ih =>
    intro post h
    have ha : a ≠ c := fun hac => h (hac ▸ List.mem_cons_self a t)
    have ht : c ∉ t := fun hct => h (List.mem_cons_of_mem a hct)
    simp only [List.cons_append]
    unfold idxOfChar
    rw [if_neg ha, ih post ht]
    rfl

theorem take_drop_split {α : Type} (pre : List α) (x : α) (post : List α) :
    (pre ++ x :: post).take pre.length = pre ∧
      (pre ++ x :: post).drop (pre.length + 1) = post := by
  constructor
  · rw [List.take_left]
  · have : pre ++ x :: post = (pre ++ [x]) ++ post := by simp
    rw [this, List.drop_left' (by simp)]

/-- C8, amended: a META content line is split at its first `=` when it
contains one; only a line with no `=` at all is split at its first `:`;
a line containing neither delimiter produces no entry.  (The claim's
first-delimiter-wins reading holds only when `=` does not follow a
`:`.) -/
theorem meta_line_split_amended (l : List Char) :
    (∀ pre post, l = pre ++ '=' :: post → '=' ∉ pre →
        metaLineEntry l =
          some (String.mk (trimChars pre), String.mk (trimChars post))) ∧
    ('=' ∉ l → ∀ pre post, l = pre ++ ':' :: post → ':' ∉ pre →
        metaLineEntry l =
          some (String.mk (trimChars pre), String.mk (trimChars post))) ∧
    ('=' ∉ l → ':' ∉ l → metaLineEntry l = none) := by
  refine ⟨?_, ?_, ?_⟩
  · rintro pre post rfl hpre
    simp only [metaLineEntry, idxOfChar_append pre post hpre]
    rw [(take_drop_split pre '=' post).1, (take_drop_split pre '=' post).2]
  · rintro heq pre post rfl hpre
    simp only [metaLineEntry, idxOfChar_not_mem heq, idxOfChar_append pre post hpre]
    rw [(take_drop_split pre ':' post).1, (take_drop_split pre ':' post).2]
  · intro heq hco
    simp only [metaLineEntry, idxOfChar_not_mem heq, idxOfChar_not_mem hco]

/-- Witness for the amended C8 on the line `k = v`. -/
theorem meta_line_split_amended_witness :
    metaLineEntry "k = v".data = some ("k", "v") :=
  (meta_line_split_amended "k = v".data).1 "k ".data " v".data (by decide) (by decide)

/- ## Claim C1: the TASK rules of `validate_with_mode` -/

theorem toolsLines_error_kind (mode : ValidationMode) (reg : Option ToolRegistry) :
    ∀ (ls : List String) (e : ApexError), toolsLines mode reg ls = .error e →
      e.kind = .invalidToolName := by
  intro ls
  induction ls with
  | nil => intro e h; simp [toolsLines] at h
  | cons l rest ih =>
    intro e h
    simp only [toolsLines] at h
    split at h
    · injection h with h
      rw [← h]
      rfl
    · split at h
      · rename_i heq
        injection h with h
        subst h
        exact ih _ heq
      · split at h <;> cases h

theorem toolsStage_error_kind (doc : ApexDocument) (mode : ValidationMode)
    (reg : Option ToolRegistry) (e : ApexError)
    (h : toolsStage doc mode reg = .error e) : e.kind = .invalidToolName := by
  unfold toolsStage at h
  split at h
  · cases h
  · split at h
    · rename_i b heq
      injection h with h
      subst h
      unfold parse_tools_view_with_registry at heq
      split at heq
      · rename_i heq2
        injection heq with heq
        subst heq
        exact toolsLines_error_kind mode reg _ _ heq2
      · cases heq
    · cases h

theorem versionStage_error_kind (mode : ValidationMode) (meta : Option MetaView)
    (e : ApexError) (h : versionStage mode meta = .error e) :
    e.kind = .validationFailure := by
  unfold versionStage at h
  split at h
  · split at h
    · cases h
    · split at h
      · cases h
      · split at h
        · cases h
        · injection h with h
          rw [← h]
          rfl
  · cases h

theorem validateRest_error_kind (doc : ApexDocument) (mode : ValidationMode)
    (reg : Option ToolRegistry) (t : Block) (e : ApexError)
    (h : validateRest doc mode reg t = .error e) :
    e.kind = .invalidToolName ∨ e.kind = .validationFailure := by
  unfold validateRest at h
  split at h
  · rename_i heq
    injection h with h
    subst h
    exact Or.inl (toolsStage_error_kind _ _ _ _ heq)
  · split at h
    · rename_i heq
      injection h with h
      subst h
      exact Or.inr (versionStage_error_kind _ _ _ heq)
    · cases h

theorem block_is_empty_iff (b : Block) :
    b.is_empty = true ↔ ∀ l ∈ b.lines, trimString l = "" := by
  unfold Block.is_empty
  rw [Bool.or_eq_true]
  constructor
  · rintro (h | h)
    · intro l hl
      rw [List.isEmpty_iff] at h
      rw [h] at hl
      cases hl
    · intro l hl
      have := (List.all_eq_true.mp h) l hl
      simpa [String.isEmpty_iff] using this
  · intro h
    right
    rw [List.all_eq_true]
    intro l hl
    simpa [String.isEmpty_iff] using h l hl

/-- C1: for every document, mode and registry, validation fails with
`MissingTask` exactly when there is no TASK block; it fails with
`MultipleTasks` exactly when there is more than one, and the error then
carries the second TASK block's start line; and with exactly one TASK
block it fails with `EmptyRequiredBlock` exactly when every line of
that block is blank after trimming. -/
theorem validate_task_rules (doc : ApexDocument) (mode : ValidationMode)
    (reg : Option ToolRegistry) :
    ((∃ e, validate_with_mode doc mode reg = .error e ∧ e.kind = .missingTask) ↔
      doc.count_blocks .task = 0) ∧
    ((∃ e, validate_with_mode doc mode reg = .error e ∧ e.kind = .multipleTasks) ↔
      1 < doc.count_blocks .task) ∧
    (∀ b0 b1 rest, doc.get_blocks .task = b0 :: b1 :: rest →
      validate_with_mode doc mode reg =
        .error (ApexError.multiple_tasks b1.span.start_line)) ∧
    (∀ t, doc.get_blocks .task = [t] →
      ((∃ e, validate_with_mode doc mode reg = .error e ∧
          e.kind = .emptyRequiredBlock) ↔ ∀ l ∈ t.lines, trimString l = "")) := by
  have hcount : doc.count_blocks .task = (doc.get_blocks .task).length := rfl
  cases hg : doc.get_blocks .task with
  | nil =>
    rw [hg] at hcount
    have hv : validate_with_mode doc mode reg = .error ApexError.missing_task := by
      unfold validate_with_mode
      rw [hg]
    refine ⟨?_, ?_, ?_, ?_⟩
    · simp only [hv, hcount]
      exact ⟨fun _ => rfl, fun _ => ⟨ApexError.missing_task, rfl, rfl⟩⟩
    · simp only [hv, hcount]
      constructor
      · rintro ⟨e, he, hk⟩
        injection he with he
        subst he
        cases hk
      · intro h
        simp at h
    · intro b0 b1 rest hcontra
      exact List.noConfusion hcontra
    · intro t hcontra
      exact List.noConfusion hcontra
  | cons b0 rest0 =>
    cases rest0 with
    | nil =>
      rw [hg] at hcount
      have hv : validate_with_mode doc mode reg =
          (if b0.is_empty then
            .error (ApexError.empty_block "TASK" (some b0.span.start_line))
          else validateRest doc mode reg b0) := by
        unfold validate_with_mode
        rw [hg]
      refine ⟨?_, ?_, ?_, ?_⟩
      · rw [hv, hcount]
        constructor
        · rintro ⟨e, he, hk⟩
          by_cases hemp : b0.is_empty
          · rw [if_pos hemp] at he
            injection he with he
            subst he
            cases hk
          · rw [if_neg hemp] at he
            rcases validateRest_error_kind _ _ _ _ _ he with h | h <;>
              rw [hk] at h <;> cases h
        · intro h
          cases h
      · rw [hv, hcount]
        constructor
        · rintro ⟨e, he, hk⟩
          by_cases hemp : b0.is_empty
          · rw [if_pos hemp] at he
            injection he with he
            subst he
            cases hk
          · rw [if_neg hemp] at he
            rcases validateRest_error_kind _ _ _ _ _ he with h | h <;>
              rw [hk] at h <;> cases h
        · intro h
          simp at h
      · intro b0' b1' rest' hcontra
        exact List.noConfusion (List.noConfusion hcontra fun _ h => h)
      · intro t ht
        injection ht with ht _
        subst ht
        rw [hv]
        constructor
        · rintro ⟨e, he, hk⟩
          by_cases hemp : b0.is_empty
          · exact (block_is_empty_iff b0).mp hemp
          · rw [if_neg hemp] at he
            rcases validateRest_error_kind _ _ _ _ _ he with h | h <;>
              rw [hk] at h <;> cases h
        · intro h
          have hemp : b0.is_empty = true := (block_is_empty_iff b0).mpr h
          rw [if_pos hemp]
          exact ⟨_, rfl, rfl⟩
    | cons b1 rest1 =>
      rw [hg] at hcount
      have hv : validate_with_mode doc mode reg =
          .error (ApexError.multiple_tasks b1.span.start_line) := by
        unfold validate_with_mode
        rw [hg]
      refine ⟨?_, ?_, ?_, ?_⟩
      · rw [hv, hcount]
        constructor
        · rintro ⟨e, he, hk⟩
          injection he with he
          subst he
          cases hk
        · intro h
          simp at h
      · rw [hv, hcount]
        constructor
        · intro _
          simp
        · intro _
          exact ⟨_, rfl, rfl⟩
      · intro b0' b1' rest' heq
        injection heq with h0 heq
        injection heq with h1 heq
        subst h1
        exact hv
      · intro t hcontra
        exact List.noConfusion (List.noConfusion hcontra fun _ h => h)

/-- Witness for C1: a document without a TASK block fails with
`MissingTask`, and one with two TASK blocks fails with `MultipleTasks`
pointing at the second one's start line. -/
theorem validate_task_rules_witness :
    (∃ e, validate_with_mode ⟨[⟨.plan, ["Step 1"], Span.new 1 2⟩], none⟩ .legacy none =
        .error e ∧ e.kind = .missingTask) ∧
    validate_with_mode
        ⟨[⟨.task, ["First"], Span.new 1 2⟩, ⟨.task, ["Second"], Span.new 3 4⟩], none⟩
        .legacy none =
      .error (ApexError.multiple_tasks 3) :=
  ⟨(validate_task_rules ⟨[⟨.plan, ["Step 1"], Span.new 1 2⟩], none⟩ .legacy none).1.mpr
      (by decide),
   (validate_task_rules
        ⟨[⟨.task, ["First"], Span.new 1 2⟩, ⟨.task, ["Second"], Span.new 3 4⟩], none⟩
        .legacy none).2.2.1
      ⟨.task, ["First"], Span.new 1 2⟩ ⟨.task, ["Second"], Span.new 3 4⟩ [] (by decide)⟩

/- ## Claim C3: registry checking per validation mode -/

theorem isPrefixOf_append_right {p : List Char} : ∀ {q : List Char} (rest : List Char),
    p.isPrefixOf q = true → p.isPrefixOf (q ++ rest) = true := by
  induction p with
  | nil => intro q rest _; simp [List.isPrefixOf]
  | cons a p ih =>
    intro q rest h
    cases q with
    | nil => simp [List.isPrefixOf] at h
    | cons b q =>
      simp only [List.isPrefixOf, Bool.and_eq_true] at h ⊢
      exact ⟨h.1, ih rest h.2⟩

theorem occursIn_of_isPrefixOf {p s : List Char} (h : p.isPrefixOf s = true) :
    occursIn p s = true := by
  cases s with
  | nil =>
    cases p with
    | nil => rfl
    | cons a t => simp [List.isPrefixOf] at h
  | cons c t =>
    unfold occursIn
    rw [h]
    rfl

theorem occursIn_append_left {p : List Char} : ∀ (l s : List Char),
    occursIn p s = true → occursIn p (l ++ s) = true := by
  intro l
  induction l with
  | nil => intro s h; simpa using h
  | cons a t ih =>
    intro s h
    simp only [List.cons_append]
    unfold occursIn
    rw [ih s h]
    simp

/-- `"Unknown tool"` occurs in every strict-mode registry error
message. -/
theorem unknownToolError_contains (name : String) :
    strContains (unknownToolError name).message "Unknown tool" = true := by
  unfold strContains unknownToolError
  simp only [String.data_append, List.append_assoc]
  have h0 : ("Unknown tool".data).isPrefixOf ("Unknown tool '".data) = true := by
    decide
  exact occursIn_of_isPrefixOf (isPrefixOf_append_right _ h0)

/-- `"tool_degraded"` occurs in every lenient-mode degraded-tool
warning. -/
theorem toolDegradedWarning_contains (name : String) :
    strContains (toolDegradedWarning name) "tool_degraded" = true := by
  unfold strContains toolDegradedWarning
  simp only [String.data_append, List.append_assoc]
  have h0 : occursIn ("tool_degraded".data) ("' (tool_degraded)".data) = true := by
    decide
  exact occursIn_append_left _ _ (occursIn_append_left _ _ h0)

theorem toolsLines_strict_error (reg : ToolRegistry) :
    ∀ (ls : List String), (∃ l ∈ ls, reg.is_valid (extract_tool_name l) = false) →
      ∃ name, toolsLines .strict (some reg) ls = .error (unknownToolError name) := by
  intro ls
  induction ls with
  | nil => rintro ⟨l, hl, -⟩; cases hl
  | cons l rest ih =>
    rintro ⟨l', hl', hbad⟩
    by_cases hb : reg.is_valid (extract_tool_name l) = false
    · refine ⟨extract_tool_name l, ?_⟩
      unfold toolsLines
      rw [if_pos (by simp [hb])]
    · rcases List.mem_cons.mp hl' with rfl | hmem
      · exact absurd hbad hb
      · obtain ⟨name, hname⟩ := ih ⟨l', hmem, hbad⟩
        refine ⟨name, ?_⟩
        unfold toolsLines
        rw [if_neg (by simp [hb]), hname]

theorem toolsLines_lenient (reg : ToolRegistry) :
    ∀ (ls : List String), ∃ ds ws, toolsLines .lenient (some reg) ls = .ok (ds, ws) ∧
      (∀ l ∈ ls, reg.is_valid (extract_tool_name l) = false →
        ∃ w ∈ ws, strContains w "tool_degraded" = true) := by
  intro ls
  induction ls with
  | nil => exact ⟨[], [], rfl, by rintro l hl -; cases hl⟩
  | cons l rest ih =>
    obtain ⟨ds, ws, hrec, hprop⟩ := ih
    by_cases hb : reg.is_valid (extract_tool_name l) = false
    · refine ⟨parse_tool_declaration l :: ds,
        toolDegradedWarning (extract_tool_name l) :: ws, ?_, ?_⟩
      · unfold toolsLines
        rw [if_neg (by simp), hrec]
        dsimp only
        rw [if_pos (by simp [hb])]
      · intro l' hl' hbad'
        rcases List.mem_cons.mp hl' with rfl | hmem
        · exact ⟨toolDegradedWarning (extract_tool_name l'), List.mem_cons_self _ _,
            toolDegradedWarning_contains _⟩
        · obtain ⟨w, hw, hc⟩ := hprop l' hmem hbad'
          exact ⟨w, List.mem_cons_of_mem _ hw, hc⟩
    · have hb' : reg.is_valid (extract_tool_name l) = true := by
        cases h : reg.is_valid (extract_tool_name l)
        · exact absurd h hb
        · rfl
      refine ⟨parse_tool_declaration l :: ds, ws, ?_, ?_⟩
      · unfold toolsLines
        rw [if_neg (by simp [hb']), hrec]
        dsimp only
        rw [if_neg (by simp [hb'])]
      · intro l' hl' hbad'
        rcases List.mem_cons.mp hl' with rfl | hmem
        · exact absurd hbad' hb
        · exact hprop l' hmem hbad'

theorem toolsLines_legacy (reg : Option ToolRegistry) :
    ∀ (ls : List String), ∃ ds, toolsLines .legacy reg ls = .ok (ds, []) := by
  intro ls
  induction ls with
  | nil => exact ⟨[], rfl⟩
  | cons l rest ih =>
    obtain ⟨ds, hrec⟩ := ih
    refine ⟨parse_tool_declaration l :: ds, ?_⟩
    unfold toolsLines
    rw [if_neg (by simp), hrec]
    dsimp only
    rw [if_neg (by simp)]

/-- Rule-3 warnings never mention `tool_degraded`. -/
theorem emptyBlockWarnings_no_degraded (doc : ApexDocument) :
    ∀ w ∈ emptyBlockWarnings doc, strContains w "tool_degraded" = false := by
  intro w hw
  obtain ⟨b, -, hfb⟩ := List.mem_filterMap.mp hw
  split at hfb
  · injection hfb with hfb
    subst hfb
    cases b.kind <;> decide
  · cases hfb

theorem validate_eq_rest (doc : ApexDocument) (mode : ValidationMode)
    (reg : Option ToolRegistry) (t : Block) (htask : doc.get_blocks .task = [t])
    (hemp : t.is_empty = false) :
    validate_with_mode doc mode reg = validateRest doc mode reg t := by
  unfold validate_with_mode
  rw [htask]
  simp [hemp]

theorem validateRest_tools_error (doc : ApexDocument) (mode : ValidationMode)
    (reg : Option ToolRegistry) (t : Block) (e : ApexError)
    (h : toolsStage doc mode reg = .error e) :
    validateRest doc mode reg t = .error e := by
  unfold validateRest
  rw [h]

theorem versionStage_nonstrict (mode : ValidationMode) (meta : Option MetaView)
    (h : mode ≠ .strict) : versionStage mode meta = .ok [] := by
  unfold versionStage
  rw [if_neg h]

/-- C3, counterexample: the claim quantifies over every document with a
TOOLS block containing a rejected tool line, but such a document with no
TASK block fails with `MissingTask` even in lenient mode, where the
claim requires validation to succeed. -/
theorem tools_mode_counterexample :
    (ApexDocument.mk [⟨.tools, ["bogus_tool"], Span.new 1 2⟩] none).get_block .tools =
      some ⟨.tools, ["bogus_tool"], Span.new 1 2⟩ ∧
    "bogus_tool" ∈ (Block.mk .tools ["bogus_tool"] (Span.new 1 2)).content_lines ∧
    ToolRegistry.empty.is_valid (extract_tool_name "bogus_tool") = false ∧
    validate_with_mode (ApexDocument.mk [⟨.tools, ["bogus_tool"], Span.new 1 2⟩] none)
        .lenient (some ToolRegistry.empty) =
      .error ApexError.missing_task := by
  refine ⟨by decide, by decide, by decide, rfl⟩

/-- C3, amended: for every document that additionally has exactly one
TASK block with non-blank content, a TOOLS block, and a tool line whose
extracted name the supplied registry rejects: strict-mode validation
fails with a message containing `Unknown tool`; lenient-mode validation
succeeds with a warning containing `tool_degraded`; legacy-mode
validation succeeds with no warning containing `tool_degraded`. -/
theorem tools_mode_amended (doc : ApexDocument) (t tb : Block) (line : String)
    (reg : ToolRegistry)
    (htask : doc.get_blocks .task = [t])
    (hne : t.is_empty = false)
    (htools : doc.get_block .tools = some tb)
    (hline : line ∈ tb.content_lines)
    (hbad : reg.is_valid (extract_tool_name line) = false) :
    (∃ e, validate_with_mode doc .strict (some reg) = .error e ∧
        strContains e.message "Unknown tool" = true) ∧
    (∃ vd, validate_with_mode doc .lenient (some reg) = .ok vd ∧
        ∃ w ∈ vd.warnings, strContains w "tool_degraded" = true) ∧
    (∃ vd, validate_with_mode doc .legacy (some reg) = .ok vd ∧
        ∀ w ∈ vd.warnings, strContains w "tool_degraded" = false) := by
  refine ⟨?_, ?_, ?_⟩
  · obtain ⟨name, hname⟩ :=
      toolsLines_strict_error reg tb.content_lines ⟨line, hline, hbad⟩
    have hstage : toolsStage doc .strict (some reg) = .error (unknownToolError name) := by
      unfold toolsStage parse_tools_view_with_registry
      rw [htools]
      dsimp only
      rw [hname]
    refine ⟨unknownToolError name, ?_, unknownToolError_contains name⟩
    rw [validate_eq_rest doc .strict (some reg) t htask hne]
    exact validateRest_tools_error _ _ _ _ _ hstage
  · obtain ⟨ds, ws, hrec, hprop⟩ := toolsLines_lenient reg tb.content_lines
    have hstage : toolsStage doc .lenient (some reg) = .ok (some ⟨ds⟩, ws) := by
      unfold toolsStage parse_tools_view_with_registry
      rw [htools]
      dsimp only
      rw [hrec]
    rw [validate_eq_rest doc .lenient (some reg) t htask hne]
    unfold validateRest
    rw [hstage]
    dsimp only
    rw [versionStage_nonstrict _ _ (by simp)]
    refine ⟨_, rfl, ?_⟩
    obtain ⟨w, hw, hc⟩ := hprop line hline hbad
    exact ⟨w, by simp [List.mem_append, hw], hc⟩
  · obtain ⟨ds, hrec⟩ := toolsLines_legacy (some reg) tb.content_lines
    have hstage : toolsStage doc .legacy (some reg) = .ok (some ⟨ds⟩, []) := by
      unfold toolsStage parse_tools_view_with_registry
      rw [htools]
      dsimp only
      rw [hrec]
    rw [validate_eq_rest doc .legacy (some reg) t htask hne]
    unfold validateRest
    rw [hstage]
    dsimp only
    rw [versionStage_nonstrict _ _ (by simp)]
    refine ⟨_, rfl, ?_⟩
    intro w hw
    simp only [List.append_nil] at hw
    exact emptyBlockWarnings_no_degraded doc w hw

/-- A concrete document with one non-blank task and one unknown tool,
used by the C3 witness. -/
def docUnknownTool : ApexDocument :=
  ⟨[⟨.task, ["Do it"], Span.new 1 2⟩, ⟨.tools, ["bogus_tool(x)"], Span.new 3 4⟩], none⟩

/-- Witness for the amended C3 at `docUnknownTool` with the empty
registry. -/
theorem tools_mode_amended_witness :
    (∃ e, validate_with_mode docUnknownTool .strict (some ToolRegistry.empty) = .error e ∧
        strContains e.message "Unknown tool" = true) ∧
    (∃ vd, validate_with_mode docUnknownTool .lenient (some ToolRegistry.empty) = .ok vd ∧
        ∃ w ∈ vd.warnings, strContains w "tool_degraded" = true) ∧
    (∃ vd, validate_with_mode docUnknownTool .legacy (some ToolRegistry.empty) = .ok vd ∧
        ∀ w ∈ vd.warnings, strContains w "tool_degraded" = false) :=
  tools_mode_amended docUnknownTool ⟨.task, ["Do it"], Span.new 1 2⟩
    ⟨.tools, ["bogus_tool(x)"], Span.new 3 4⟩ "bogus_tool(x)" ToolRegistry.empty
    (by decide) (by decide) (by decide) (by decide) (by decide)

/- ## Claim C4: the strict-mode version gate -/

theorem splitOnDot_ne_nil : ∀ (l : List Char), splitOnDot l ≠ [] := by
  intro l
  induction l with
  | nil => simp [splitOnDot]
  | cons c cs ih =>
    unfold splitOnDot
    by_cases hc : c = '.'
    · rw [if_pos hc]
      simp
    · rw [if_neg hc]
      cases hsp : splitOnDot cs with
      | nil => simp
      | cons p ps => simp

/-- The claim's compatibility condition: splitting the version string on
`.` yields a first component that parses as an unsigned integer equal
to exactly 1. -/
def majorIsOne (v : String) : Bool :=
  match splitOnDot v.data with
  | [] => false
  | p :: _ => parseU32 p == some 1

/-- The code's `is_version_compatible`, on a `MetaView` whose version is
present, agrees with the claim's first-component-is-1 condition. -/
theorem is_version_compatible_eq_majorIsOne (m : MetaView) (v : String)
    (hv : m.version = some v) : m.is_version_compatible = majorIsOne v := by
  unfold MetaView.is_version_compatible majorIsOne
  rw [hv]
  dsimp only
  cases hsp : splitOnDot v.data with
  | nil => exact absurd hsp (splitOnDot_ne_nil _)
  | cons p ps =>
    dsimp only
    cases hp : parseU32 p with
    | none => rfl
    | some n =>
      dsimp only
      by_cases hn : n = 1
      · subst hn
        simp
      · rw [if_neg hn]
        simp [hn]

/-- C4: under strict mode, once the views are built (exactly one
non-blank TASK and a tool check that passes): a missing META block or a
META without a version key yields success with the corresponding
warning, never a hard error; a present version string makes validation
succeed exactly when splitting it on `.` gives a first component
parsing as the unsigned integer 1, and otherwise validation fails with
a `ValidationFailure` whose message contains `Unsupported`; no other
mode enforces any of this. -/
theorem version_gate (doc : ApexDocument) (t : Block) (reg : Option ToolRegistry)
    (tv : Option ToolsView) (tws : List String)
    (htask : doc.get_blocks .task = [t]) (hne : t.is_empty = false)
    (htools : toolsStage doc .strict reg = .ok (tv, tws)) :
    (doc.get_block .meta = none →
      ∃ vd, validate_with_mode doc .strict reg = .ok vd ∧
        ∃ w ∈ vd.warnings, strContains w "Missing META" = true) ∧
    (∀ mb, doc.get_block .meta = some mb → (parse_meta_view mb).version = none →
      ∃ vd, validate_with_mode doc .strict reg = .ok vd ∧
        ∃ w ∈ vd.warnings, strContains w "Missing version" = true) ∧
    (∀ mb v, doc.get_block .meta = some mb →
      (parse_meta_view mb).version = some v →
      ((∃ vd, validate_with_mode doc .strict reg = .ok vd) ↔ majorIsOne v = true) ∧
      (majorIsOne v = false →
        ∃ e, validate_with_mode doc .strict reg = .error e ∧
          e.kind = .validationFailure ∧
          strContains e.message "Unsupported" = true)) ∧
    (∀ mode, mode ≠ .strict →
      versionStage mode ((doc.get_block .meta).map parse_meta_view) = .ok []) := by
  have hbase : validate_with_mode doc .strict reg = validateRest doc .strict reg t :=
    validate_eq_rest doc .strict reg t htask hne
  refine ⟨?_, ?_, ?_, fun mode h => versionStage_nonstrict mode _ h⟩
  · intro hmeta
    have hvs : versionStage .strict ((doc.get_block .meta).map parse_meta_view) =
        .ok [missingMetaWarning] := by
      rw [hmeta]
      rfl
    rw [hbase]
    unfold validateRest
    rw [htools]
    dsimp only
    rw [hvs]
    refine ⟨_, rfl, missingMetaWarning, by simp, by decide⟩
  · intro mb hmeta hver
    have hvs : versionStage .strict ((doc.get_block .meta).map parse_meta_view) =
        .ok [missingVersionWarning] := by
      rw [hmeta]
      simp only [Option.map_some']
      unfold versionStage
      rw [if_pos rfl]
      dsimp only
      rw [hver]
    rw [hbase]
    unfold validateRest
    rw [htools]
    dsimp only
    rw [hvs]
    refine ⟨_, rfl, missingVersionWarning, by simp, by decide⟩
  · intro mb v hmeta hver
    have hcompat : (parse_meta_view mb).is_version_compatible = majorIsOne v :=
      is_version_compatible_eq_majorIsOne _ v hver
    rw [hbase]
    unfold validateRest
    rw [htools]
    dsimp only
    have hvs : versionStage .strict ((doc.get_block .meta).map parse_meta_view) =
        (if majorIsOne v = true then .ok []
         else .error (unsupportedVersionError v)) := by
      rw [hmeta]
      simp only [Option.map_some']
      unfold versionStage
      rw [if_pos rfl]
      dsimp only
      rw [hver, hcompat]
    rw [hvs]
    constructor
    · by_cases hmaj : majorIsOne v = true
      · rw [if_pos hmaj]
        exact ⟨fun _ => hmaj, fun _ => ⟨_, rfl⟩⟩
      · rw [if_neg hmaj]
        refine ⟨?_, fun h => absurd h hmaj⟩
        rintro ⟨vd, hvd⟩
        cases hvd
    · intro hmaj
      rw [if_neg (by simp [hmaj])]
      refine ⟨unsupportedVersionError v, rfl, rfl, ?_⟩
      unfold strContains unsupportedVersionError
      simp only [String.data_append, List.append_assoc]
      have h0 : ("Unsupported".data).isPrefixOf ("Unsupported APEX version: ".data) =
          true := by decide
      exact occursIn_of_isPrefixOf (isPrefixOf_append_right _ h0)

/-- A concrete strict-mode document with `version=1.1`, used by the C4
witness. -/
def docVersion (v : String) : ApexDocument :=
  ⟨[⟨.task, ["Do it"], Span.new 1 2⟩, ⟨.meta, ["version=" ++ v], Span.new 3 4⟩], none⟩

/-- Witness for C4: `version=1.1` passes strict validation, and
`version=2.0` fails it with an `Unsupported` `ValidationFailure`. -/
theorem version_gate_witness :
    (∃ vd, validate_with_mode (docVersion "1.1") .strict none = .ok vd) ∧
    (∃ e, validate_with_mode (docVersion "2.0") .strict none = .error e ∧
      e.kind = .validationFailure ∧ strContains e.message "Unsupported" = true) :=
  ⟨((version_gate (docVersion "1.1") ⟨.task, ["Do it"], Span.new 1 2⟩ none none []
      (by decide) (by decide) rfl).2.2.1
      ⟨.meta, ["version=1.1"], Span.new 3 4⟩ "1.1" (by decide) (by decide)).1.mpr
      (by decide),
   ((version_gate (docVersion "2.0") ⟨.task, ["Do it"], Span.new 1 2⟩ none none []
      (by decide) (by decide) rfl).2.2.1
      ⟨.meta, ["version=2.0"], Span.new 3 4⟩ "2.0" (by decide) (by decide)).2
      (by decide)⟩

/- ## Claim C5: idempotence of `canonicalize` -/

theorem toNat_ofNat_valid {n : Nat} (h : n < 55296) : (Char.ofNat n).toNat = n := by
  unfold Char.ofNat
  rw [dif_pos (Or.inl h)]
  unfold Char.ofNatAux Char.toNat
  simp [UInt32.toNat]

theorem toLowerChar_toNat (c : Char) (h : 65 ≤ c.toNat ∧ c.toNat ≤ 90) :
    (toLowerChar c).toNat = c.toNat + 32 := by
  unfold toLowerChar
  rw [if_pos (by simp only [Bool.and_eq_true, decide_eq_true_eq]; omega)]
  exact toNat_ofNat_valid (by omega)

theorem toLowerChar_eq_self (c : Char) (h : ¬(65 ≤ c.toNat ∧ c.toNat ≤ 90)) :
    toLowerChar c = c := by
  unfold toLowerChar
  rw [if_neg (by simp only [Bool.and_eq_true, decide_eq_true_eq]; omega)]

theorem toLowerChar_idem (c : Char) :
    toLowerChar (toLowerChar c) = toLowerChar c := by
  by_cases h : 65 ≤ c.toNat ∧ c.toNat ≤ 90
  · have hn := toLowerChar_toNat c h
    apply toLowerChar_eq_self
    omega
  · rw [toLowerChar_eq_self c h, toLowerChar_eq_self c h]

theorem ws_of_alnum {c : Char} (h : isAsciiAlphanum c = true) :
    isRustWhitespace c = false := by
  cases hw : isRustWhitespace c
  · rfl
  · exfalso
    simp only [isRustWhitespace, Bool.or_eq_true, beq_iff_eq] at hw
    simp only [isAsciiAlphanum, Bool.or_eq_true, Bool.and_eq_true,
      decide_eq_true_eq] at h
    omega

theorem alnum_ne_underscore {c : Char} (h : isAsciiAlphanum c = true) : c ≠ '_' := by
  intro hc
  subst hc
  simp [isAsciiAlphanum] at h

theorem dropWhile_eq_self {p : Char → Bool} {l : List Char}
    (h : ∀ c ∈ l, p c = false) : l.dropWhile p = l := by
  cases l with
  | nil => rfl
  | cons a t =>
    rw [List.dropWhile_cons, if_neg (by simp [h a (List.mem_cons_self a t)])]

theorem trimChars_eq_self {l : List Char}
    (h : ∀ c ∈ l, isRustWhitespace c = false) : trimChars l = l := by
  unfold trimChars
  rw [dropWhile_eq_self h,
    dropWhile_eq_self (fun c hc => h c (List.mem_reverse.mp hc)),
    List.reverse_reverse]

theorem map_eq_self_of {f : Char → Char} {l : List Char}
    (h : ∀ c ∈ l, f c = c) : l.map f = l := by
  induction l with
  | nil => rfl
  | cons a t ih =>
    rw [List.map_cons, h a (List.mem_cons_self a t),
      ih (fun c hc => h c (List.mem_cons_of_mem a hc))]

/-- No two adjacent underscores. -/
def noDoubleUS : List Char → Bool
  | [] => true
  | [_] => true
  | a :: b :: t => !(a == '_' && b == '_') && noDoubleUS (b :: t)

theorem noDouble_tail {a : Char} {t : List Char}
    (h : noDoubleUS (a :: t) = true) : noDoubleUS t = true := by
  cases t with
  | nil => rfl
  | cons b t' =>
    simp only [noDoubleUS, Bool.and_eq_true] at h
    exact h.2

theorem noDouble_cons_of_ne {a : Char} {t : List Char} (ha : a ≠ '_')
    (ht : noDoubleUS t = true) : noDoubleUS (a :: t) = true := by
  cases t with
  | nil => rfl
  | cons b t' =>
    simp only [noDoubleUS, Bool.and_eq_true, Bool.not_eq_true']
    exact ⟨by simp [ha], ht⟩

theorem noDouble_cons_underscore {t : List Char} (hh : t.head? ≠ some '_')
    (ht : noDoubleUS t = true) : noDoubleUS ('_' :: t) = true := by
  cases t with
  | nil => rfl
  | cons b t' =>
    have hb : b ≠ '_' := by
      intro hb
      exact hh (by rw [hb]; rfl)
    simp only [noDoubleUS, Bool.and_eq_true, Bool.not_eq_true']
    exact ⟨by simp [hb], ht⟩

theorem noDouble_underscore_head {t : List Char}
    (h : noDoubleUS ('_' :: t) = true) : t.head? ≠ some '_' := by
  cases t with
  | nil => simp
  | cons b t' =>
    simp only [noDoubleUS, Bool.and_eq_true, Bool.not_eq_true'] at h
    have hb : b ≠ '_' := by
      intro hb
      subst hb
      simp at h
    simp [hb]

theorem normCore_cons_alnum {d : Char} {ds : List Char}
    (hd : isAsciiAlphanum d = true) (b : Bool) :
    normCore b (d :: ds) = d :: normCore false ds := by
  cases b <;> simp [normCore, hd]

theorem normCore_cons_sep_true {d : Char} {ds : List Char}
    (hd : ¬isAsciiAlphanum d = true) :
    normCore true (d :: ds) = normCore true ds := by
  simp [normCore, hd]

theorem normCore_cons_sep_false {d : Char} {ds : List Char}
    (hd : ¬isAsciiAlphanum d = true) :
    normCore false (d :: ds) = '_' :: normCore true ds := by
  simp [normCore, hd]

theorem normCore_mem : ∀ (l : List Char) (b : Bool) (c : Char), c ∈ normCore b l →
    c = '_' ∨ (c ∈ l ∧ isAsciiAlphanum c = true) := by
  intro l
  induction l with
  | nil => intro b c h; cases h
  | cons d ds ih =>
    intro b c h
    by_cases hd : isAsciiAlphanum d = true
    · rw [normCore_cons_alnum hd b] at h
      rcases List.mem_cons.mp h with rfl | h'
      · exact Or.inr ⟨List.mem_cons_self _ _, hd⟩
      · rcases ih false c h' with h'' | ⟨hm, ha⟩
        · exact Or.inl h''
        · exact Or.inr ⟨List.mem_cons_of_mem _ hm, ha⟩
    · cases b with
      | true =>
        rw [normCore_cons_sep_true hd] at h
        rcases ih true c h with h'' | ⟨hm, ha⟩
        · exact Or.inl h''
        · exact Or.inr ⟨List.mem_cons_of_mem _ hm, ha⟩
      | false =>
        rw [normCore_cons_sep_false hd] at h
        rcases List.mem_cons.mp h with rfl | h'
        · exact Or.inl rfl
        · rcases ih true c h' with h'' | ⟨hm, ha⟩
          · exact Or.inl h''
          · exact Or.inr ⟨List.mem_cons_of_mem _ hm, ha⟩

theorem normCore_true_head : ∀ (l : List Char), (normCore true l).head? ≠ some '_' := by
  intro l
  induction l with
  | nil => simp [normCore]
  | cons d ds ih =>
    by_cases hd : isAsciiAlphanum d = true
    · rw [normCore_cons_alnum hd true]
      simp [alnum_ne_underscore hd]
    · rw [normCore_cons_sep_true hd]
      exact ih

theorem normCore_noDouble : ∀ (l : List Char) (b : Bool),
    noDoubleUS (normCore b l) = true := by
  intro l
  induction l with
  | nil => intro b; rfl
  | cons d ds ih =>
    intro b
    by_cases hd : isAsciiAlphanum d = true
    · rw [normCore_cons_alnum hd b]
      exact noDouble_cons_of_ne (alnum_ne_underscore hd) (ih false)
    · cases b with
      | true =>
        rw [normCore_cons_sep_true hd]
        exact ih true
      | false =>
        rw [normCore_cons_sep_false hd]
        exact noDouble_cons_underscore (normCore_true_head ds) (ih true)

theorem normCore_id : ∀ (l : List Char),
    (∀ c ∈ l, c = '_' ∨ isAsciiAlphanum c = true) → noDoubleUS l = true →
    (normCore false l = l ∧ (l.head? ≠ some '_' → normCore true l = l)) := by
  intro l
  induction l with
  | nil => intro _ _; exact ⟨rfl, fun _ => rfl⟩
  | cons c cs ih =>
    intro hok hnd
    obtain ⟨ih1, ih2⟩ := ih (fun x hx => hok x (List.mem_cons_of_mem c hx))
      (noDouble_tail hnd)
    rcases hok c (List.mem_cons_self c cs) with rfl | hc
    · have hal : isAsciiAlphanum '_' = false := by decide
      constructor
      · rw [normCore_cons_sep_false (by simp [hal])]
        rw [ih2 (noDouble_underscore_head hnd)]
      · intro h
        exact absurd rfl h
    · constructor
      · rw [normCore_cons_alnum hc false]
        rw [ih1]
      · intro _
        rw [normCore_cons_alnum hc true]
        rw [ih1]

theorem mem_dropTrailing {c : Char} {l : List Char}
    (h : c ∈ dropTrailingUnderscore l) : c ∈ l := by
  unfold dropTrailingUnderscore at h
  split at h
  · exact (List.dropLast_sublist l).subset h
  · exact h

theorem noDouble_dropLast : ∀ (l : List Char), noDoubleUS l = true →
    noDoubleUS l.dropLast = true := by
  intro l
  induction l with
  | nil => intro _; rfl
  | cons a t ih =>
    intro h
    cases t with
    | nil => rfl
    | cons b t' =>
      have h2 := ih (noDouble_tail h)
      show noDoubleUS (a :: (b :: t').dropLast) = true
      cases t' with
      | nil => rfl
      | cons e t'' =>
        show noDoubleUS (a :: b :: (e :: t'').dropLast) = true
        simp only [noDoubleUS, Bool.and_eq_true, Bool.not_eq_true']
        constructor
        · simp only [noDoubleUS, Bool.and_eq_true, Bool.not_eq_true'] at h
          exact h.1
        · exact h2

theorem noDouble_dropTrailing {l : List Char} (h : noDoubleUS l = true) :
    noDoubleUS (dropTrailingUnderscore l) = true := by
  unfold dropTrailingUnderscore
  split
  · exact noDouble_dropLast l h
  · exact h

theorem head_dropLast {l : List Char} (h : l.head? ≠ some '_') :
    l.dropLast.head? ≠ some '_' := by
  cases l with
  | nil => simp
  | cons a t =>
    cases t with
    | nil => simp
    | cons b t' =>
      simpa using h

theorem head_dropTrailing {l : List Char} (h : l.head? ≠ some '_') :
    (dropTrailingUnderscore l).head? ≠ some '_' := by
  unfold dropTrailingUnderscore
  split
  · exact head_dropLast h
  · exact h

theorem noDouble_getLast_dropLast : ∀ (l : List Char), noDoubleUS l = true →
    l.getLast? = some '_' → l.dropLast.getLast? ≠ some '_' := by
  intro l
  induction l with
  | nil => intro _ h; cases h
  | cons a t ih =>
    intro hnd hlast
    cases t with
    | nil => simp
    | cons b t' =>
      rw [List.getLast?_cons_cons] at hlast
      have ihr := ih (noDouble_tail hnd) hlast
      cases t' with
      | nil =>
        have hb : b = '_' := by simpa using hlast
        subst hb
        simp only [noDoubleUS, Bool.and_eq_true, Bool.not_eq_true'] at hnd
        have ha : a ≠ '_' := by
          intro ha
          subst ha
          simp at hnd
        simpa using ha
      | cons e t'' =>
        show (a :: b :: (e :: t'').dropLast).getLast? ≠ some '_'
        rw [List.getLast?_cons_cons]
        exact ihr

theorem getLast_dropTrailing {l : List Char} (h : noDoubleUS l = true) :
    (dropTrailingUnderscore l).getLast? ≠ some '_' := by
  unfold dropTrailingUnderscore
  split
  · rename_i hl
    exact noDouble_getLast_dropLast l h hl
  · rename_i hl
    exact hl

/-- C5: `canonicalize` is idempotent. -/
theorem normalizeChars_idem (l : List Char) :
    normalizeChars (normalizeChars l) = normalizeChars l := by
  have hmem : ∀ c ∈ normalizeChars l,
      c = '_' ∨ (isAsciiAlphanum c = true ∧ ∃ x, c = toLowerChar x) := by
    intro c hc
    unfold normalizeChars at hc
    have hc' := mem_dropTrailing hc
    rcases normCore_mem _ _ c hc' with h | ⟨hm, ha⟩
    · exact Or.inl h
    · refine Or.inr ⟨ha, ?_⟩
      rcases List.mem_map.mp hm with ⟨x, -, hx⟩
      exact ⟨x, hx.symm⟩
  have hlower : ∀ c ∈ normalizeChars l, toLowerChar c = c := by
    intro c hc
    rcases hmem c hc with rfl | ⟨-, x, rfl⟩
    · decide
    · exact toLowerChar_idem x
  have hws : ∀ c ∈ normalizeChars l, isRustWhitespace c = false := by
    intro c hc
    rcases hmem c hc with rfl | ⟨ha, -⟩
    · decide
    · exact ws_of_alnum ha
  have hok : ∀ c ∈ normalizeChars l, c = '_' ∨ isAsciiAlphanum c = true := by
    intro c hc
    rcases hmem c hc with rfl | ⟨ha, -⟩
    · exact Or.inl rfl
    · exact Or.inr ha
  have hnd : noDoubleUS (normalizeChars l) = true :=
    noDouble_dropTrailing (normCore_noDouble _ _)
  have hhead : (normalizeChars l).head? ≠ some '_' :=
    head_dropTrailing (normCore_true_head _)
  have hlast : (normalizeChars l).getLast? ≠ some '_' :=
    getLast_dropTrailing (normCore_noDouble _ _)
  have key : normalizeChars (normalizeChars l) =
      dropTrailingUnderscore
        (normCore true ((trimChars (normalizeChars l)).map toLowerChar)) := rfl
  rw [key, trimChars_eq_self hws, map_eq_self_of hlower,
    (normCore_id _ hok hnd).2 hhead]
  unfold dropTrailingUnderscore
  rw [if_neg hlast]

/-- C5: `canonicalize(canonicalize(s)) = canonicalize(s)` for every
string. -/
theorem canonicalize_idempotent (s : String) :
    canonicalize (canonicalize s) = canonicalize s := by
  show normalize_constraint (normalize_constraint s) = normalize_constraint s
  unfold normalize_constraint
  exact congrArg String.mk (normalizeChars_idem s.data)

end Apex
